import Mathlib

/-!
# ipdb: the range tree, the country-code table and the subnet loop

A shallow embedding of the AVL tree of IPv4 ranges and of the bucket table of
country codes of `store.c`, and of the subnet decomposition loop of `ipup.c`,
with the properties of insertion, removal, lookup, parsing and decomposition.

Conventions of the embedding.

* A pointer to a node is the subtree it points to; `NULL` is `IP4Node.null`.
* A function that takes `IP4Node **node` and returns an `int` becomes a
  function from the subtree to the pair (returned int, subtree left in `*node`).
* A dereference of `NULL` has no result: the functions return `Option`, and
  `none` stands for that undefined behaviour.
* `allocate(size, true)` either fails (returns `NULL`) or returns cleared
  memory, so a fresh node has `B = 0`, `L = R = NULL` (`allocateIP4Node`).
  Whether the single allocation of an insertion succeeds is the parameter
  `alloc`.
* `lo`, `hi`, `cc` are `uint32_t` in the source; the tree functions only compare
  and copy them, so they are natural numbers here.  `B` is a C `int`; it is an
  integer here.
-/

namespace Ipdb

/-- The record `(lo, hi, cc)` that `serializeIP4Tree` writes for one node. -/
structure IP4Set where
  lo : Nat
  hi : Nat
  cc : Nat
deriving DecidableEq, Repr

/-- The node of the AVL tree of IPv4 ranges: bounds, country code, balance
field `B`, left and right subtree. -/
inductive IP4Node where
  | null : IP4Node
  | node (lo hi cc : Nat) (B : Int) (L R : IP4Node) : IP4Node
deriving DecidableEq, Repr

/-- The C truth value of a condition. -/
def cbool (p : Prop) [Decidable p] : Int := if p then 1 else 0

/-- Source: `balanceIP4Node` (store.c 40-101). The argument is `*node` on entry
(with `o->B` already updated by the caller), the result is the returned int and
`*node` on exit. -/
def balanceIP4Node : IP4Node → Option (Int × IP4Node)
  | .null => none
  | .node lo hi cc B L R =>
    if B = -2 then
      match L with
      | .null => some (cbool ((0 : Int) ≠ 0), .node lo hi cc B L R)
      | .node plo phi pcc pB pL pR =>
        if pB = 1 then
          match pR with
          | .null => none
          | .node qlo qhi qcc qB qL qR =>
            some (cbool ((1 : Int) ≠ 0),
              .node qlo qhi qcc 0
                (.node plo phi pcc (-(cbool (qB > 0))) pL qL)
                (.node lo hi cc (cbool (qB < 0)) qR R))
        else
          some (cbool (pB ≠ 0),
            .node plo phi pcc (pB + 1) pL (.node lo hi cc (-(pB + 1)) pR R))
    else if B = 2 then
      match R with
      | .null => some (cbool ((0 : Int) ≠ 0), .node lo hi cc B L R)
      | .node qlo qhi qcc qB qL qR =>
        if qB = -1 then
          match qL with
          | .null => none
          | .node plo phi pcc pB pL pR =>
            some (cbool ((1 : Int) ≠ 0),
              .node plo phi pcc 0
                (.node lo hi cc (-(cbool (pB > 0))) L pL)
                (.node qlo qhi qcc (cbool (pB < 0)) pR qR))
        else
          some (cbool (qB ≠ 0),
            .node qlo qhi qcc (qB - 1) (.node lo hi cc (-(qB - 1)) L qL) qR)
    else some (cbool ((0 : Int) ≠ 0), .node lo hi cc B L R)

/-- The common tail of `addIP4Node` (store.c 229-235): `change` is the signed
result of the recursive call, the node is `o` with the child already relinked. -/
def addIP4Tail (change : Int) (lo hi cc : Nat) (B : Int) (L R : IP4Node) :
    Option (Int × IP4Node) :=
  if change ≠ 0 then
    if (B + change).natAbs > 1 then
      match balanceIP4Node (.node lo hi cc (B + change) L R) with
      | none => none
      | some (r, t) => some (1 - r, t)
    else some (cbool (B + change ≠ 0), .node lo hi cc (B + change) L R)
  else some (0, .node lo hi cc B L R)

/-- Modelled from the spec: `allocate` is declared in binutils.h, which is not
among the sources. Per the spec's error model an allocation either fails or
yields memory; the call `allocate(sizeof(IP4Node), true)` asks for cleared
memory, so the result is `NULL` on failure and otherwise a node with all fields
zero (`B = 0`, `L = R = NULL`). `alloc` tells whether it succeeds. -/
def allocateIP4Node (alloc : Bool) : IP4Node :=
  if alloc then .node 0 0 0 0 .null .null else .null

/-- Source: `addIP4Node` (store.c 212-251). `alloc` tells whether the
allocation of the new leaf succeeds. -/
def addIP4Node (alloc : Bool) (lo hi cc : Nat) : IP4Node → Option (Int × IP4Node)
  | .null =>
    match allocateIP4Node alloc with
    | .node _ _ _ B L R => some (1, .node lo hi cc B L R)
    | .null => some (0, .null)
  | .node olo ohi occ B L R =>
    if lo < olo then
      match addIP4Node alloc lo hi cc L with
      | none => none
      | some (r, L') => addIP4Tail (-r) olo ohi occ B L' R
    else if lo > olo then
      match addIP4Node alloc lo hi cc R with
      | none => none
      | some (r, R') => addIP4Tail r olo ohi occ B L R'
    else some (0, .node olo ohi occ B L R)

/-- The common tail of `removeIP4Node`, `pickPrevIP4Node` and `pickNextIP4Node`
(store.c 321-327, 112-118, 147-153). -/
def removeIP4Tail (change : Int) (lo hi cc : Nat) (B : Int) (L R : IP4Node) :
    Option (Int × IP4Node) :=
  if change ≠ 0 then
    if (B + change).natAbs > 1 then
      balanceIP4Node (.node lo hi cc (B + change) L R)
    else some (cbool (B + change = 0), .node lo hi cc (B + change) L R)
  else some (0, .node lo hi cc B L R)

/-- Source: `pickPrevIP4Node` (store.c 104-136). The argument is `*node`; the
result is the returned int, the subtree left in the slot of `*node` (for the
two base cases that slot is `(*exch)->R`), and the record of the node left in
`*exch`. -/
def pickPrevIP4Node : IP4Node → Option (Int × IP4Node × IP4Set)
  | .null => none
  | .node lo hi cc B L R =>
    match R with
    | .node _ _ _ _ _ _ =>
      match pickPrevIP4Node R with
      | none => none
      | some (r, R', x) =>
        match removeIP4Tail (-r) lo hi cc B L R' with
        | none => none
        | some (c, t) => some (c, t, x)
    | .null =>
      match L with
      | .node _ _ _ pB _ _ => some (cbool (pB = 0), L, ⟨lo, hi, cc⟩)
      | .null => some (1, .null, ⟨lo, hi, cc⟩)

/-- Source: `pickNextIP4Node` (store.c 139-171), as `pickPrevIP4Node`. -/
def pickNextIP4Node : IP4Node → Option (Int × IP4Node × IP4Set)
  | .null => none
  | .node lo hi cc B L R =>
    match L with
    | .node _ _ _ _ _ _ =>
      match pickNextIP4Node L with
      | none => none
      | some (r, L', x) =>
        match removeIP4Tail r lo hi cc B L' R with
        | none => none
        | some (c, t) => some (c, t, x)
    | .null =>
      match R with
      | .node _ _ _ qB _ _ => some (cbool (qB = 0), R, ⟨lo, hi, cc⟩)
      | .null => some (1, .null, ⟨lo, hi, cc⟩)

/-- The two-children case of `removeIP4Node` (store.c 281-318) followed by the
common tail (321-327): `b`, `p`, `q` are the removed node's `B`, `L`, `R`, both
children present. The node that takes the removed node's place gets
`o->B = b`, then the tail applies `change` to it. -/
def removeIP4Two (b : Int) (p q : IP4Node) : Option (Int × IP4Node) :=
  if b = -1 then
    match p with
    | .null => none
    | .node plo phi pcc _ pL pR =>
      match pR with
      | .null => removeIP4Tail 1 plo phi pcc b pL q
      | .node _ _ _ _ _ _ =>
        match pickPrevIP4Node p with
        | none => none
        | some (r, p', x) => removeIP4Tail r x.lo x.hi x.cc b p' q
  else
    match q with
    | .null => none
    | .node qlo qhi qcc _ qL qR =>
      match qL with
      | .null => removeIP4Tail (-1) qlo qhi qcc b p qR
      | .node _ _ _ _ _ _ =>
        match pickNextIP4Node q with
        | none => none
        | some (r, q', x) => removeIP4Tail (-r) x.lo x.hi x.cc b p q'

/-- The branch `ip == o->lo` of `removeIP4Node` (store.c 268-319): with at most
one child the node is spliced out, `*node = (p > q) ? p : q`, and 1 is
returned; with two children `removeIP4Two` applies. `b`, `p`, `q` are the
node's `B`, `L`, `R`. -/
def removeIP4Found (b : Int) (p q : IP4Node) : Option (Int × IP4Node) :=
  match p with
  | .null => some (1, q)
  | .node _ _ _ _ _ _ =>
    match q with
    | .null => some (1, p)
    | .node _ _ _ _ _ _ => removeIP4Two b p q

/-- Source: `removeIP4Node` (store.c 254-332). -/
def removeIP4Node (ip : Nat) : IP4Node → Option (Int × IP4Node)
  | .null => some (0, .null)
  | .node lo hi cc B L R =>
    if ip < lo then
      match removeIP4Node ip L with
      | none => none
      | some (r, L') => removeIP4Tail r lo hi cc B L' R
    else if ip > lo then
      match removeIP4Node ip R with
      | none => none
      | some (r, R') => removeIP4Tail (-r) lo hi cc B L R'
    else
      removeIP4Found B L R

/-- Source: `findIP4Node` (store.c 174-189); the result is the node found, or
`IP4Node.null` for `NULL`. -/
def findIP4Node (ip : Nat) : IP4Node → IP4Node
  | .null => .null
  | .node lo hi cc B L R =>
    if lo ≤ ip ∧ ip ≤ hi then .node lo hi cc B L R
    else if ip < lo then findIP4Node ip L
    else findIP4Node ip R

/-- The test of `findNet4Node` (store.c 196-198) at a node with fields `nlo`,
`nhi`, `ncc`. `ofs` is the C int `(cc == node->cc)`; `lo-ofs` and `hi+ofs` are
computed in `uint32_t`, that is modulo 2^32. -/
def netTest (lo hi cc nlo nhi ncc : Nat) : Prop :=
  (nlo ≤ lo ∧ (lo + 4294967296 - (if cc = ncc then 1 else 0)) % 4294967296 ≤ nhi) ∨
    (nlo ≤ (hi + (if cc = ncc then 1 else 0)) % 4294967296 ∧ hi ≤ nhi) ∨
    (lo ≤ nlo ∧ nhi ≤ hi)

instance decNetTest (lo hi cc nlo nhi ncc : Nat) : Decidable (netTest lo hi cc nlo nhi ncc) :=
  inferInstanceAs (Decidable
    ((nlo ≤ lo ∧ (lo + 4294967296 - (if cc = ncc then 1 else 0)) % 4294967296 ≤ nhi) ∨
      (nlo ≤ (hi + (if cc = ncc then 1 else 0)) % 4294967296 ∧ hi ≤ nhi) ∨
      (lo ≤ nlo ∧ nhi ≤ hi)))

/-- Source: `findNet4Node` (store.c 192-209); the result is the node found, or
`IP4Node.null` for `NULL`. -/
def findNet4Node (lo hi cc : Nat) : IP4Node → IP4Node
  | .null => .null
  | .node nlo nhi ncc B L R =>
    if netTest lo hi cc nlo nhi ncc then .node nlo nhi ncc B L R
    else if lo < nlo then findNet4Node lo hi cc L
    else findNet4Node lo hi cc R

/-- Source: `serializeIP4Tree` (store.c 335-348): the records written, in
order. -/
def serializeIP4Tree : IP4Node → List IP4Set
  | .null => []
  | .node lo hi cc _ L R =>
    serializeIP4Tree L ++ ⟨lo, hi, cc⟩ :: serializeIP4Tree R

/-- The height of a subtree (`NULL` has height 0). -/
def height : IP4Node → Nat
  | .null => 0
  | .node _ _ _ _ L R => max (height L) (height R) + 1

/-- The AVL invariant with consistent balance fields: at every node `B` equals
`height(R) - height(L)` and lies in {-1, 0, +1}. -/
def avl : IP4Node → Prop
  | .null => True
  | .node _ _ _ B L R =>
    avl L ∧ avl R ∧ B = (height R : Int) - (height L : Int) ∧ -1 ≤ B ∧ B ≤ 1

/-- The search-tree order by `lo`: everything in the left subtree is below the
node's `lo`, everything in the right subtree above it. -/
def ordered : IP4Node → Prop
  | .null => True
  | .node lo _ _ _ L R =>
    ordered L ∧ ordered R ∧
    (∀ r ∈ serializeIP4Tree L, r.lo < lo) ∧ (∀ r ∈ serializeIP4Tree R, lo < r.lo)

instance decAvl : (t : IP4Node) → Decidable (avl t)
  | .null => isTrue trivial
  | .node _ _ _ B L R =>
    have := decAvl L
    have := decAvl R
    inferInstanceAs (Decidable (avl L ∧ avl R ∧
      B = (height R : Int) - (height L : Int) ∧ -1 ≤ B ∧ B ≤ 1))

instance decOrdered : (t : IP4Node) → Decidable (ordered t)
  | .null => isTrue trivial
  | .node lo _ _ _ L R =>
    have := decOrdered L
    have := decOrdered R
    inferInstanceAs (Decidable (ordered L ∧ ordered R ∧
      (∀ r ∈ serializeIP4Tree L, r.lo < lo) ∧ (∀ r ∈ serializeIP4Tree R, lo < r.lo)))

/-- Every node's range is well formed: `lo ≤ hi`. -/
def ranges (t : IP4Node) : Prop := ∀ a ∈ serializeIP4Tree t, a.lo ≤ a.hi

/-- The ranges of the tree are pairwise disjoint. -/
def disjoint (t : IP4Node) : Prop :=
  ∀ a ∈ serializeIP4Tree t, ∀ b ∈ serializeIP4Tree t, a ≠ b → a.hi < b.lo ∨ b.hi < a.lo

instance decRanges (t : IP4Node) : Decidable (ranges t) :=
  inferInstanceAs (Decidable (∀ a ∈ serializeIP4Tree t, a.lo ≤ a.hi))

instance decDisjoint (t : IP4Node) : Decidable (disjoint t) :=
  inferInstanceAs (Decidable (∀ a ∈ serializeIP4Tree t, ∀ b ∈ serializeIP4Tree t,
    a ≠ b → a.hi < b.lo ∨ b.hi < a.lo))

/-- Every bound stored in the tree is a `uint32_t` value. -/
def bounded32 (t : IP4Node) : Prop :=
  ∀ a ∈ serializeIP4Tree t, a.lo < 4294967296 ∧ a.hi < 4294967296

instance decBounded32 (t : IP4Node) : Decidable (bounded32 t) :=
  inferInstanceAs (Decidable (∀ a ∈ serializeIP4Tree t, a.lo < 4294967296 ∧ a.hi < 4294967296))

/-- The record `n` overlaps the range `[lo, hi]`, or carries the country code
`cc` and touches `[lo, hi]` with zero gap (in exact arithmetic). -/
def netMatch (lo hi cc : Nat) (n : IP4Set) : Prop :=
  (n.lo ≤ hi ∧ lo ≤ n.hi) ∨ (n.cc = cc ∧ (n.hi + 1 = lo ∨ hi + 1 = n.lo))

instance decNetMatch (lo hi cc : Nat) (n : IP4Set) : Decidable (netMatch lo hi cc n) :=
  inferInstanceAs (Decidable
    ((n.lo ≤ hi ∧ lo ≤ n.hi) ∨ (n.cc = cc ∧ (n.hi + 1 = lo ∨ hi + 1 = n.lo))))

/-- No two records of the tree with the same country code are adjacent
(`hi + 1 = lo` of the other, in exact arithmetic). -/
def noAdjacentSameCC (t : IP4Node) : Prop :=
  ∀ a ∈ serializeIP4Tree t, ∀ b ∈ serializeIP4Tree t, a.cc = b.cc → a.hi + 1 ≠ b.lo

instance decNoAdjacentSameCC (t : IP4Node) : Decidable (noAdjacentSameCC t) :=
  inferInstanceAs (Decidable (∀ a ∈ serializeIP4Tree t, ∀ b ∈ serializeIP4Tree t,
    a.cc = b.cc → a.hi + 1 ≠ b.lo))

/-- The balance field of the root (0 for `NULL`). -/
def rootB : IP4Node → Int
  | .null => 0
  | .node _ _ _ B _ _ => B

/-- The node of the AVL tree of country codes: code-word `cc`, value `ui`,
balance field `B`, left and right subtree. -/
inductive CCNode where
  | null : CCNode
  | node (cc ui : Nat) (B : Int) (L R : CCNode) : CCNode
deriving DecidableEq, Repr

/-- Source: `balanceCCNode` (store.c 696-757), as `balanceIP4Node`. -/
def balanceCCNode : CCNode → Option (Int × CCNode)
  | .null => none
  | .node cc ui B L R =>
    if B = -2 then
      match L with
      | .null => some (cbool ((0 : Int) ≠ 0), .node cc ui B L R)
      | .node pcc pui pB pL pR =>
        if pB = 1 then
          match pR with
          | .null => none
          | .node qcc qui qB qL qR =>
            some (cbool ((1 : Int) ≠ 0),
              .node qcc qui 0
                (.node pcc pui (-(cbool (qB > 0))) pL qL)
                (.node cc ui (cbool (qB < 0)) qR R))
        else
          some (cbool (pB ≠ 0),
            .node pcc pui (pB + 1) pL (.node cc ui (-(pB + 1)) pR R))
    else if B = 2 then
      match R with
      | .null => some (cbool ((0 : Int) ≠ 0), .node cc ui B L R)
      | .node qcc qui qB qL qR =>
        if qB = -1 then
          match qL with
          | .null => none
          | .node pcc pui pB pL pR =>
            some (cbool ((1 : Int) ≠ 0),
              .node pcc pui 0
                (.node cc ui (-(cbool (pB > 0))) L pL)
                (.node qcc qui (cbool (pB < 0)) pR qR))
        else
          some (cbool (qB ≠ 0),
            .node qcc qui (qB - 1) (.node cc ui (-(qB - 1)) L qL) qR)
    else some (cbool ((0 : Int) ≠ 0), .node cc ui B L R)

/-- The common tail of `addCCNode` (store.c 865-871). -/
def addCCTail (change : Int) (cc ui : Nat) (B : Int) (L R : CCNode) :
    Option (Int × CCNode) :=
  if change ≠ 0 then
    if (B + change).natAbs > 1 then
      match balanceCCNode (.node cc ui (B + change) L R) with
      | none => none
      | some (r, t) => some (1 - r, t)
    else some (cbool (B + change ≠ 0), .node cc ui (B + change) L R)
  else some (0, .node cc ui B L R)

/-- Modelled from the spec: `allocate(sizeof(CCNode), true)` of binutils.h, as
`allocateIP4Node`: `NULL` on failure, otherwise a cleared node. -/
def allocateCCNode (alloc : Bool) : CCNode :=
  if alloc then .node 0 0 0 .null .null else .null

/-- Source: `addCCNode` (store.c 848-886). `alloc` tells whether the
allocation of the new leaf succeeds. -/
def addCCNode (alloc : Bool) (cc ui : Nat) : CCNode → Option (Int × CCNode)
  | .null =>
    match allocateCCNode alloc with
    | .node _ _ B L R => some (1, .node cc ui B L R)
    | .null => some (0, .null)
  | .node occ oui B L R =>
    if cc < occ then
      match addCCNode alloc cc ui L with
      | none => none
      | some (r, L') => addCCTail (-r) occ oui B L' R
    else if cc > occ then
      match addCCNode alloc cc ui R with
      | none => none
      | some (r, R') => addCCTail r occ oui B L R'
    else some (0, .node occ oui B L R)

/-! ## The bucket table of country codes

A C string is the list of its bytes before the terminating NUL. `cce` and
`ccTableSize` are declared in store.h, which is not among the sources: the
functions below take them as the parameters `cce` and `N`. -/

/-- Source: `findCCNode` (store.c 830-845); the result is the node found, or
`CCNode.null` for `NULL`. -/
def findCCNode (cc : Nat) : CCNode → CCNode
  | .null => .null
  | .node ncc ui B L R =>
    if cc < ncc then findCCNode cc L
    else if cc > ncc then findCCNode cc R
    else .node ncc ui B L R

/-- Source: `cci` (store.c 1007-1010),
`return (cc = cce((uint16_t)cc) < ccTableSize) ? cc : 0;`. The comparison binds
tighter than the assignment: `cc` receives the truth value of
`cce((uint16_t)cc) < ccTableSize`, and that value is returned when nonzero. -/
def cci (cce : Nat → Nat) (N : Nat) (cc : Nat) : Nat :=
  if (if cce (cc % 65536) < N then 1 else 0) ≠ 0 then
    (if cce (cc % 65536) < N then 1 else 0)
  else 0

/-- Source: `createCCTable` (store.c 989-992) when the allocation succeeds:
`ccTableSize` cleared pointers. -/
def createCCTable (N : Nat) : List CCNode := List.replicate N .null

/-- Source: `findCC` (store.c 1012-1015); `none` when `table[cci(cc)]` lies
outside the table. -/
def findCC (cce : Nat → Nat) (N : Nat) (table : List CCNode) (cc : Nat) : Option CCNode :=
  match table[cci cce N cc]? with
  | none => none
  | some root => some (findCCNode cc root)

/-- The C library's `isspace` in the C locale. -/
def isspace (c : Nat) : Bool := c = 32 || (9 ≤ c && c ≤ 13)

/-- Modelled from the spec: `trim` of binutils (not among the sources), the
ordinary trimming of white space at both ends of the string. -/
def trim (s : List Nat) : List Nat :=
  ((s.dropWhile isspace).reverse.dropWhile isspace).reverse

/-- Modelled from the spec: `strvlen` of binutils (not among the sources), the
length of the string. -/
def strvlen (s : List Nat) : Nat := s.length

/-- The upper case of one byte (ASCII). -/
def toupper (c : Nat) : Nat := if 97 ≤ c ∧ c ≤ 122 then c - 32 else c

/-- The `uint16_t` read by `*(uint16_t *)s` from the bytes `c1`, `c2` of a
string on a little-endian host: the code-word of the code `c1 c2`. -/
def codeWord (c1 c2 : Nat) : Nat := c1 % 256 + 256 * (c2 % 256)

/-- The digit loop of `strtol` in base 10: the value of the leading digits,
continuing from `acc`. -/
def strtolDigits (acc : Nat) : List Nat → Nat
  | [] => acc
  | c :: cs => if 48 ≤ c ∧ c ≤ 57 then strtolDigits (acc * 10 + (c - 48)) cs else acc

/-- The C library's `strtol(s, NULL, 10)` with a 64-bit `long`: white space is
skipped, an optional sign is read, then the leading digits; a value out of
range is clamped to `LONG_MAX` or `LONG_MIN`. -/
def strtol (s : List Nat) : Int :=
  match s.dropWhile isspace with
  | 45 :: r => max (-(strtolDigits 0 r : Int)) (-9223372036854775808)
  | 43 :: r => min (strtolDigits 0 r : Int) 9223372036854775807
  | r => min (strtolDigits 0 r : Int) 9223372036854775807

/-- The value `ui` that `storeCC` reads from the trimmed token after its first
two bytes (store.c 1023-1030): 0 unless an `=` follows, else `strtol` of what
follows the first `=`. -/
def storeCCValue (len : Nat) (rest : List Nat) : Int :=
  if len > 2 then
    match rest.dropWhile (fun c => c ≠ 61) with
    | [] => 0
    | _ :: after => strtol after
  else 0

/-- Source: `storeCC` (store.c 1017-1034). `alloc` tells whether the allocation
in `addCCNode` succeeds; `none` stands for an access outside the table or a
dereference of `NULL`. `uppercase(ccui, 2)` of binutils (not among the
sources) puts the first two bytes in upper case. -/
def storeCC (cce : Nat → Nat) (N : Nat) (alloc : Bool) (table : List CCNode)
    (ccui : List Nat) : Option (List CCNode) :=
  if strvlen (trim ccui) ≥ 2 then
    match trim ccui with
    | c1 :: c2 :: rest =>
      match table[cci cce N (codeWord (toupper c1) (toupper c2))]? with
      | none => none
      | some root =>
        match addCCNode alloc (codeWord (toupper c1) (toupper c2))
            (if 0 < storeCCValue (strvlen (trim ccui)) rest ∧
                storeCCValue (strvlen (trim ccui)) rest < 4294967295 then
              (storeCCValue (strvlen (trim ccui)) rest).toNat else 0) root with
        | none => none
        | some (_, root') =>
          some (table.set (cci cce N (codeWord (toupper c1) (toupper c2))) root')
    | _ => some table
  else some table

/-- Modelled from the spec: `cce` of store.h (not among the sources), the
canonical index `(C1 - 'A') * 26 + (C2 - 'A')` of a code-word that holds `C1` in
its low byte and `C2` in its high byte. The spec defines it for two upper-case
letters; below `'A'` the subtraction stops at 0 here. -/
def cceSpec (cc : Nat) : Nat := (cc % 256 - 65) * 26 + (cc / 256 % 256 - 65)

/-- The byte is an ASCII letter, upper or lower case. -/
def isLetter (c : Nat) : Prop := (65 ≤ c ∧ c ≤ 90) ∨ (97 ≤ c ∧ c ≤ 122)

instance decIsLetter (c : Nat) : Decidable (isLetter c) :=
  inferInstanceAs (Decidable ((65 ≤ c ∧ c ≤ 90) ∨ (97 ≤ c ∧ c ≤ 122)))

/-- The bytes of a string literal. -/
def cstr (s : String) : List Nat := s.toList.map Char.toNat

/-- The decimal numeral of `v`, as bytes. -/
def decimal (v : Nat) : List Nat := (Nat.toDigits 10 v).map Char.toNat

/-- One call of the engine on the IPv4 range tree: `addIP4Node` (with the
outcome of its allocation) or `removeIP4Node`. -/
inductive IP4Op where
  | add (alloc : Bool) (lo hi cc : Nat) : IP4Op
  | remove (ip : Nat) : IP4Op
deriving DecidableEq, Repr

/-- The tree left in `root` by one call; the returned int is dropped. -/
def applyIP4Op (op : IP4Op) (t : IP4Node) : Option IP4Node :=
  match op with
  | .add alloc lo hi cc => (addIP4Node alloc lo hi cc t).map Prod.snd
  | .remove ip => (removeIP4Node ip t).map Prod.snd

/-- The tree left by a sequence of calls, applied from left to right. -/
def runIP4Ops : List IP4Op → IP4Node → Option IP4Node
  | [], t => some t
  | op :: ops, t =>
    match applyIP4Op op t with
    | none => none
    | some t' => runIP4Ops ops t'

/-! ## The subnet decomposition of ipup.c -/

/-- The floor of the binary logarithm of `n`, for `1 ≤ n < 2^fuel`. -/
def log2floor : Nat → Nat → Nat
  | 0, _ => 0
  | fuel + 1, n => if n < 2 then 0 else log2floor fuel (n / 2) + 1

/-- Modelled from the spec: `intlb4_1p` of binutils (not among the sources),
`intlb4_1p(x) = floor(log2(x + 1))` for a `uint32_t` argument `x`. -/
def intlb4_1p (x : Nat) : Nat := log2floor 33 (x + 1)

/-- Source: the inner loop `while (ip - (ip >> m << m)) m--;` (ipup.c 313-314),
from the value `m` on: the value of `m` after the loop. The shifts and the
subtraction are `uint32_t` operations; a shift count outside 0..31 is undefined
behaviour, `none`. -/
def alignLoop (ip : Nat) : Nat → Option Nat
  | 0 =>
    if (ip + 4294967296 - (ip >>> 0 <<< 0) % 4294967296) % 4294967296 ≠ 0 then none
    else some 0
  | m + 1 =>
    if m + 1 ≥ 32 then none
    else if (ip + 4294967296 - (ip >>> (m + 1) <<< (m + 1)) % 4294967296) % 4294967296 ≠ 0 then
      alignLoop ip m
    else some (m + 1)

/-- How a run of the decomposition loop ends: the loop condition failed, an
operation with undefined behaviour was reached, or the fuel of the model ran
out. -/
inductive LoopEnd where
  | done : LoopEnd
  | undefined : LoopEnd
  | fuel : LoopEnd
deriving DecidableEq, Repr

/-- Source: the `do ... while` loop of the IPv4 table generation (ipup.c
310-329) for a record with upper bound `hi`, entered with the current `ip`:
the pairs `(ip, 32 - m)` printed, in order, and how the run ends. `fuel` bounds
the number of iterations of the model. -/
def ip4Subnets (hi : Nat) : Nat → Nat → List (Nat × Nat) × LoopEnd
  | 0, _ => ([], .fuel)
  | fuel + 1, ip =>
    match alignLoop ip (intlb4_1p ((hi + 4294967296 - ip) % 4294967296)) with
    | none => ([], .undefined)
    | some m =>
      if (ip + 2 ^ m) % 4294967296 < hi then
        ((ip, 32 - m) :: (ip4Subnets hi fuel ((ip + 2 ^ m) % 4294967296)).1,
          (ip4Subnets hi fuel ((ip + 2 ^ m) % 4294967296)).2)
      else ([(ip, 32 - m)], .done)

/-- The address `a` lies in the block `(ip, len)`: `ip ≤ a < ip + 2^(32 - len)`. -/
def inBlock (b : Nat × Nat) (a : Nat) : Prop := b.1 ≤ a ∧ a < b.1 + 2 ^ (32 - b.2)

instance decInBlock (b : Nat × Nat) (a : Nat) : Decidable (inBlock b a) :=
  inferInstanceAs (Decidable (b.1 ≤ a ∧ a < b.1 + 2 ^ (32 - b.2)))

/-- What holds of a printed pair `(ip, 32 - m)`: `m` is at most 32, `ip` is a
multiple of `2^m`, the block ends inside the range, and no larger exponent has
these two properties. -/
def blockValid (hi : Nat) (b : Nat × Nat) : Prop :=
  b.2 ≤ 32 ∧ 2 ^ (32 - b.2) ∣ b.1 ∧ b.1 + 2 ^ (32 - b.2) - 1 ≤ hi ∧
    ∀ k, 2 ^ k ∣ b.1 → b.1 + 2 ^ k - 1 ≤ hi → k ≤ 32 - b.2

/-! ## The table value of a directive (ipup.c) -/

/-- The C type of `cce(cc)`, which store.h (not among the sources) declares:
`int` (also what a narrower integer type is promoted to), `uint32_t`, or a
64-bit signed integer. It decides in which arithmetic `toff + cce(cc)*10` is
evaluated before the result is widened to `int64_t`. -/
inductive CceType where
  | sint32 : CceType
  | uint32 : CceType
  | sint64 : CceType
deriving DecidableEq, Repr

/-- The value of the C expression `toff + cce(cc)*10` of `ccv` (ipup.c 80) as
converted to `int64_t`, for `idx = cce(cc)` and an `int32_t` offset: in `int`
arithmetic an overflow is undefined behaviour (`none`), in `uint32_t`
arithmetic the sum is taken modulo 2^32, in 64-bit arithmetic it is exact. -/
def ccvSum (ty : CceType) (idx : Nat) (toff : Int) : Option Int :=
  match ty with
  | .sint32 =>
    if (idx : Int) * 10 ≤ 2147483647 ∧ -2147483648 ≤ toff + (idx : Int) * 10 ∧
        toff + (idx : Int) * 10 ≤ 2147483647 then
      some (toff + (idx : Int) * 10)
    else none
  | .uint32 => some ((toff + (idx : Int) * 10) % 4294967296)
  | .sint64 =>
    if (idx : Int) * 10 ≤ 9223372036854775807 ∧
        toff + (idx : Int) * 10 ≤ 9223372036854775807 then
      some (toff + (idx : Int) * 10)
    else none

/-- Source: `ccv` (ipup.c 78-82); `cc` is a `uint16_t`, `toff` an `int32_t`. -/
def ccv (ty : CceType) (cce : Nat → Nat) (cc : Nat) (toff : Int) : Option Nat :=
  match ccvSum ty (cce (cc % 65536)) toff with
  | none => none
  | some val => some (if 0 ≤ val ∧ val ≤ 4294967295 then val.toNat else 0)

/-- What the IPv4 table generation prints for one block (ipup.c 316-325): the
plain form `ip/len`, or `table tnum add ip/len` with or without a value. -/
inductive Directive where
  | plain (ip len : Nat) : Directive
  | table (tnum : Int) (ip len : Nat) (value : Option Nat) : Directive
deriving DecidableEq, Repr

/-- Source: `uint32_t ui = (ccn) ? ccn->ui : 0;` (ipup.c 308). -/
def recordUi : CCNode → Nat
  | .null => 0
  | .node _ ui _ _ _ => ui

/-- Source: the `if` chain that prints one block (ipup.c 316-325), for the
record's code-word `cc` and the block `(ip, len)`; `none` when `ccv` is
evaluated and has undefined behaviour. -/
def directive (ty : CceType) (cce : Nat → Nat) (plainFlag : Bool) (tnum : Int) (ui tval : Nat)
    (ccValFlag : Bool) (toff : Int) (cc ip len : Nat) : Option Directive :=
  if plainFlag then some (.plain ip len)
  else if ui ≠ 0 then some (.table tnum ip len (some ui))
  else if tval ≠ 0 then some (.table tnum ip len (some tval))
  else if ccValFlag then
    match ccv ty cce (cc % 65536) toff with
    | none => none
    | some v => some (.table tnum ip len (some v))
  else some (.table tnum ip len none)

/-! ## Bisection search over the serialized table -/

/-- Modelled from the spec: the loop of `bisectionIP4Search`, which ipup.c calls
and which is not among the sources. "Classic binary search comparing the target
address against each probed record's `[lo,hi]`", here on the index interval
`[lo, hi)`; the result is the index of the matching record, or -1. -/
def bisectionIP4Loop (ip : Nat) (a : List IP4Set) : Nat → Nat → Nat → Int
  | 0, _, _ => -1
  | fuel + 1, lo, hi =>
    if lo < hi then
      match a[(lo + hi) / 2]? with
      | none => -1
      | some r =>
        if ip < r.lo then bisectionIP4Loop ip a fuel lo ((lo + hi) / 2)
        else if r.hi < ip then bisectionIP4Loop ip a fuel ((lo + hi) / 2 + 1) hi
        else ((lo + hi) / 2 : Nat)
    else -1

/-- Modelled from the spec: `bisectionIP4Search(ip, sets, count)`, the bisection
search over the `count` records of the serialized table; a negative result
means "not found" (ipup.c 213 tests `>= 0`). -/
def bisectionIP4Search (ip : Nat) (a : List IP4Set) : Int :=
  bisectionIP4Loop ip a a.length 0 a.length

/-! ## Removal from the bucket table of country codes -/

/-- The common tail of `removeCCNode`, `pickPrevCCNode` and `pickNextCCNode`
(store.c 956-962, 768-774, 803-809). -/
def removeCCTail (change : Int) (cc ui : Nat) (B : Int) (L R : CCNode) :
    Option (Int × CCNode) :=
  if change ≠ 0 then
    if (B + change).natAbs > 1 then
      balanceCCNode (.node cc ui (B + change) L R)
    else some (cbool (B + change = 0), .node cc ui (B + change) L R)
  else some (0, .node cc ui B L R)

/-- Source: `pickPrevCCNode` (store.c 760-792), as `pickPrevIP4Node`; the third
component is the pair `(cc, ui)` of the node picked. -/
def pickPrevCCNode : CCNode → Option (Int × CCNode × (Nat × Nat))
  | .null => none
  | .node cc ui B L R =>
    match R with
    | .node _ _ _ _ _ =>
      match pickPrevCCNode R with
      | none => none
      | some (r, R', x) =>
        match removeCCTail (-r) cc ui B L R' with
        | none => none
        | some (c, t) => some (c, t, x)
    | .null =>
      match L with
      | .node _ _ pB _ _ => some (cbool (pB = 0), L, (cc, ui))
      | .null => some (1, .null, (cc, ui))

/-- Source: `pickNextCCNode` (store.c 795-827), as `pickNextIP4Node`. -/
def pickNextCCNode : CCNode → Option (Int × CCNode × (Nat × Nat))
  | .null => none
  | .node cc ui B L R =>
    match L with
    | .node _ _ _ _ _ =>
      match pickNextCCNode L with
      | none => none
      | some (r, L', x) =>
        match removeCCTail r cc ui B L' R with
        | none => none
        | some (c, t) => some (c, t, x)
    | .null =>
      match R with
      | .node _ _ qB _ _ => some (cbool (qB = 0), R, (cc, ui))
      | .null => some (1, .null, (cc, ui))

/-- The two-children case of `removeCCNode` (store.c 916-953) followed by the
common tail, as `removeIP4Two`. -/
def removeCCTwo (b : Int) (p q : CCNode) : Option (Int × CCNode) :=
  if b = -1 then
    match p with
    | .null => none
    | .node pcc pui _ pL pR =>
      match pR with
      | .null => removeCCTail 1 pcc pui b pL q
      | .node _ _ _ _ _ =>
        match pickPrevCCNode p with
        | none => none
        | some (r, p', x) => removeCCTail r x.1 x.2 b p' q
  else
    match q with
    | .null => none
    | .node qcc qui _ qL qR =>
      match qL with
      | .null => removeCCTail (-1) qcc qui b p qR
      | .node _ _ _ _ _ =>
        match pickNextCCNode q with
        | none => none
        | some (r, q', x) => removeCCTail (-r) x.1 x.2 b p q'

/-- The branch `cc == o->cc` of `removeCCNode` (store.c 903-954), as
`removeIP4Found`. -/
def removeCCFound (b : Int) (p q : CCNode) : Option (Int × CCNode) :=
  match p with
  | .null => some (1, q)
  | .node _ _ _ _ _ =>
    match q with
    | .null => some (1, p)
    | .node _ _ _ _ _ => removeCCTwo b p q

/-- Source: `removeCCNode` (store.c 889-967). -/
def removeCCNode (cc : Nat) : CCNode → Option (Int × CCNode)
  | .null => some (0, .null)
  | .node ncc ui B L R =>
    if cc < ncc then
      match removeCCNode cc L with
      | none => none
      | some (r, L') => removeCCTail r ncc ui B L' R
    else if cc > ncc then
      match removeCCNode cc R with
      | none => none
      | some (r, R') => removeCCTail (-r) ncc ui B L R'
    else
      removeCCFound B L R

/-- The body of `removeCC` for the root `node` of the bucket (store.c
1040-1044): the new root of the bucket. Modelled from the spec:
`deallocate(VPR(p), false)` of binutils (not among the sources) destroys the
node and clears the pointer `p`, so a root without children is replaced by
`NULL`, whatever its key. -/
def removeCCRoot (cc : Nat) : CCNode → Option CCNode
  | .null => some .null
  | .node ncc ui B L R =>
    match L, R with
    | .null, .null => some .null
    | _, _ =>
      match removeCCNode cc (.node ncc ui B L R) with
      | none => none
      | some (_, root') => some root'

/-- Source: `removeCC` (store.c 1036-1045); `none` stands for an access outside
the table or a dereference of `NULL`. -/
def removeCC (cce : Nat → Nat) (N : Nat) (table : List CCNode) (cc : Nat) :
    Option (List CCNode) :=
  match table[cci cce N cc]? with
  | none => none
  | some root =>
    match removeCCRoot cc root with
    | none => none
    | some root' => some (table.set (cci cce N cc) root')

/-! ## Sample trees -/

/-- A root with a left leaf only. -/
def treeA : IP4Node :=
  .node 10 20 1 (-1) (.node 5 6 1 0 .null .null) .null

/-- A root with two leaves. -/
def treeB : IP4Node :=
  .node 10 20 1 0 (.node 5 6 1 0 .null .null) (.node 30 40 2 0 .null .null)

/-- A tree of height 4 whose root has two children with grandchildren. -/
def treeC : IP4Node :=
  .node 50 59 1 (-1)
    (.node 20 24 2 1 (.node 10 19 3 0 .null .null)
      (.node 30 39 4 (-1) (.node 25 28 5 0 .null .null) .null))
    (.node 70 79 6 1 .null (.node 80 89 7 0 .null .null))

/-- Two ranges at the two ends of the 32-bit address space. -/
def treeD : IP4Node :=
  .node 4294967000 4294967295 2 (-1) (.node 0 5 1 0 .null .null) .null

/-- A node with `B = -2` in the middle of a rebalance: its left subtree is two
levels taller than its right subtree, and the left child leans right. -/
def treeE : IP4Node :=
  .node 50 59 1 (-2) (.node 20 24 2 1 .null (.node 30 39 4 0 .null .null)) .null

/-! ## Rebalancing -/

theorem balance_spec (lo hi cc : Nat) (B : Int) (L R : IP4Node)
    (hL : avl L) (hR : avl R) (hB : B = (height R : Int) - (height L : Int))
    (h2 : B = -2 ∨ B = 2) :
    ∃ r t, balanceIP4Node (.node lo hi cc B L R) = some (r, t) ∧ avl t ∧
      (height t : Int) + r = (height (.node lo hi cc B L R) : Int) ∧
      (r = 0 ∨ r = 1) ∧
      (B = -2 → rootB L ≠ 0 → r = 1) ∧ (B = 2 → rootB R ≠ 0 → r = 1) ∧
      (r = 0 → rootB t ≠ 0) := by
  rcases h2 with h2 | h2
  · subst h2
    cases L with
    | null => simp only [height] at hB; omega
    | node plo phi pcc pB pL pR =>
      simp only [avl] at hL
      obtain ⟨hpL, hpR, hpB, hp1, hp2⟩ := hL
      by_cases h1 : pB = 1
      · cases pR with
        | null => simp [height] at hpB; omega
        | node qlo qhi qcc qB qL qR =>
          simp only [avl] at hpR
          obtain ⟨hqL, hqR, hqB, hq1, hq2⟩ := hpR
          refine ⟨1, .node qlo qhi qcc 0
                (.node plo phi pcc (-(cbool (qB > 0))) pL qL)
                (.node lo hi cc (cbool (qB < 0)) qR R), by simp [balanceIP4Node, h1, cbool], ?_⟩
          simp only [height, avl, rootB, cbool] at *
          refine ⟨⟨⟨hpL, hqL, ?_, ?_, ?_⟩, ⟨hqR, hR, ?_, ?_, ?_⟩, ?_, ?_, ?_⟩, ?_, ?_, ?_, ?_, ?_⟩ <;>
            (repeat' split) <;> first | omega | simp
      · refine ⟨cbool (pB ≠ 0), .node plo phi pcc (pB + 1) pL (.node lo hi cc (-(pB + 1)) pR R),
          by simp [balanceIP4Node, h1], ?_⟩
        simp only [height, avl, rootB, cbool] at *
        refine ⟨⟨hpL, ⟨hpR, hR, ?_, ?_, ?_⟩, ?_, ?_, ?_⟩, ?_, ?_, ?_, ?_, ?_⟩ <;>
          (try split) <;> omega
  · subst h2
    cases R with
    | null => simp only [height] at hB; omega
    | node qlo qhi qcc qB qL qR =>
      simp only [avl] at hR
      obtain ⟨hqL, hqR, hqB, hq1, hq2⟩ := hR
      by_cases h1 : qB = -1
      · cases qL with
        | null => simp [height] at hqB; omega
        | node plo phi pcc pB pL pR =>
          simp only [avl] at hqL
          obtain ⟨hpL, hpR, hpB, hp1, hp2⟩ := hqL
          refine ⟨1, .node plo phi pcc 0
                (.node lo hi cc (-(cbool (pB > 0))) L pL)
                (.node qlo qhi qcc (cbool (pB < 0)) pR qR), by simp [balanceIP4Node, h1, cbool], ?_⟩
          simp only [height, avl, rootB, cbool] at *
          refine ⟨⟨⟨hL, hpL, ?_, ?_, ?_⟩, ⟨hpR, hqR, ?_, ?_, ?_⟩, ?_, ?_, ?_⟩, ?_, ?_, ?_, ?_, ?_⟩ <;>
            (repeat' split) <;> first | omega | simp
      · refine ⟨cbool (qB ≠ 0), .node qlo qhi qcc (qB - 1) (.node lo hi cc (-(qB - 1)) L qL) qR,
          by simp [balanceIP4Node, h1], ?_⟩
        simp only [height, avl, rootB, cbool] at *
        refine ⟨⟨⟨hL, hqL, ?_, ?_, ?_⟩, hqR, ?_, ?_, ?_⟩, ?_, ?_, ?_, ?_, ?_⟩ <;>
          (try split) <;> omega


theorem addIP4Tail_spec (change : Int) (lo hi cc : Nat) (B : Int) (L R : IP4Node)
    (hl0 hr0 : Nat) (hL : avl L) (hR : avl R)
    (hB : B = (hr0 : Int) - (hl0 : Int)) (hB1 : -1 ≤ B) (hB2 : B ≤ 1)
    (hc : change = 0 ∨ change = -1 ∨ change = 1)
    (h0 : change = 0 → height L = hl0 ∧ height R = hr0)
    (hm : change = -1 → height L = hl0 + 1 ∧ height R = hr0 ∧ (hl0 = 0 ∨ rootB L ≠ 0))
    (hp : change = 1 → height R = hr0 + 1 ∧ height L = hl0 ∧ (hr0 = 0 ∨ rootB R ≠ 0)) :
    ∃ r t, addIP4Tail change lo hi cc B L R = some (r, t) ∧ avl t ∧
      (height t : Int) = (max hl0 hr0 + 1 : Nat) + r ∧ (r = 0 ∨ r = 1) ∧
      (r = 1 → rootB t ≠ 0) := by
  unfold addIP4Tail
  rcases hc with hc | hc | hc
  · subst hc
    obtain ⟨e1, e2⟩ := h0 rfl
    refine ⟨0, .node lo hi cc B L R, by simp, ?_⟩
    simp only [avl, height, rootB]
    refine ⟨⟨hL, hR, ?_, hB1, hB2⟩, ?_, ?_, ?_⟩ <;> first | omega | simp
  · subst hc
    obtain ⟨e1, e2, e3⟩ := hm rfl
    by_cases hb : B = -1
    · subst hb
      obtain ⟨r, t, e, ht, hh, hr, hrl, -, -⟩ :=
        balance_spec lo hi cc (-2) L R hL hR (by omega) (by left; rfl)
      have hr1 : r = 1 := hrl rfl (by rcases e3 with e3 | e3; · omega
                                      · exact e3)
      subst hr1
      refine ⟨0, t, by simp [e], ht, ?_, by simp, by simp⟩
      simp only [height] at hh
      omega
    · refine ⟨cbool (B + -1 ≠ 0), .node lo hi cc (B + -1) L R, ?_, ?_⟩
      · have : ¬ (B + -1).natAbs > 1 := by omega
        simp [this]
      · simp only [avl, height, rootB, cbool]
        refine ⟨⟨hL, hR, ?_, ?_, ?_⟩, ?_, ?_, ?_⟩ <;> (try split) <;> omega
  · subst hc
    obtain ⟨e1, e2, e3⟩ := hp rfl
    by_cases hb : B = 1
    · subst hb
      obtain ⟨r, t, e, ht, hh, hr, -, hrr, -⟩ :=
        balance_spec lo hi cc 2 L R hL hR (by omega) (by right; rfl)
      have hr1 : r = 1 := hrr rfl (by rcases e3 with e3 | e3; · omega
                                      · exact e3)
      subst hr1
      refine ⟨0, t, by simp [e], ht, ?_, by simp, by simp⟩
      simp only [height] at hh
      omega
    · refine ⟨cbool (B + 1 ≠ 0), .node lo hi cc (B + 1) L R, ?_, ?_⟩
      · have : ¬ (B + 1).natAbs > 1 := by omega
        simp [this]
      · simp only [avl, height, rootB, cbool]
        refine ⟨⟨hL, hR, ?_, ?_, ?_⟩, ?_, ?_, ?_⟩ <;> (try split) <;> omega

theorem removeIP4Tail_spec (change : Int) (lo hi cc : Nat) (B : Int) (L R : IP4Node)
    (hl0 hr0 : Nat) (hL : avl L) (hR : avl R)
    (hB : B = (hr0 : Int) - (hl0 : Int)) (hB1 : -1 ≤ B) (hB2 : B ≤ 1)
    (hc : change = 0 ∨ change = -1 ∨ change = 1)
    (h0 : change = 0 → height L = hl0 ∧ height R = hr0)
    (hm : change = -1 → height R + 1 = hr0 ∧ height L = hl0)
    (hp : change = 1 → height L + 1 = hl0 ∧ height R = hr0) :
    ∃ r t, removeIP4Tail change lo hi cc B L R = some (r, t) ∧ avl t ∧
      (height t : Int) + r = (max hl0 hr0 + 1 : Nat) ∧ (r = 0 ∨ r = 1) := by
  unfold removeIP4Tail
  rcases hc with hc | hc | hc
  · subst hc
    obtain ⟨e1, e2⟩ := h0 rfl
    refine ⟨0, .node lo hi cc B L R, by simp, ?_⟩
    simp only [avl, height, rootB]
    refine ⟨⟨hL, hR, ?_, hB1, hB2⟩, ?_, ?_⟩ <;> first | omega | simp
  · subst hc
    obtain ⟨e1, e2⟩ := hm rfl
    by_cases hb : B = -1
    · subst hb
      obtain ⟨r, t, e, ht, hh, hr, -, -, -⟩ :=
        balance_spec lo hi cc (-2) L R hL hR (by omega) (by left; rfl)
      refine ⟨r, t, by simp [e], ht, ?_, hr⟩
      simp only [height] at hh
      omega
    · refine ⟨cbool (B + -1 = 0), .node lo hi cc (B + -1) L R, ?_, ?_⟩
      · have : ¬ (B + -1).natAbs > 1 := by omega
        simp [this]
      · simp only [avl, height, rootB, cbool]
        refine ⟨⟨hL, hR, ?_, ?_, ?_⟩, ?_, ?_⟩ <;> (try split) <;> omega
  · subst hc
    obtain ⟨e1, e2⟩ := hp rfl
    by_cases hb : B = 1
    · subst hb
      obtain ⟨r, t, e, ht, hh, hr, -, -, -⟩ :=
        balance_spec lo hi cc 2 L R hL hR (by omega) (by right; rfl)
      refine ⟨r, t, by simp [e], ht, ?_, hr⟩
      simp only [height] at hh
      omega
    · refine ⟨cbool (B + 1 = 0), .node lo hi cc (B + 1) L R, ?_, ?_⟩
      · have : ¬ (B + 1).natAbs > 1 := by omega
        simp [this]
      · simp only [avl, height, rootB, cbool]
        refine ⟨⟨hL, hR, ?_, ?_, ?_⟩, ?_, ?_⟩ <;> (try split) <;> omega

/-! ## Heights and balance fields under insertion and removal -/

theorem addIP4Node_spec (alloc : Bool) (lo hi cc : Nat) (t : IP4Node) (h : avl t) :
    ∃ r t', addIP4Node alloc lo hi cc t = some (r, t') ∧ avl t' ∧
      (height t' : Int) = (height t : Int) + r ∧ (r = 0 ∨ r = 1) ∧
      (r = 1 → height t = 0 ∨ rootB t' ≠ 0) := by
  induction t with
  | null =>
    cases alloc
    · exact ⟨0, .null, by simp [addIP4Node, allocateIP4Node], trivial, by simp, by simp, by simp⟩
    · exact ⟨1, .node lo hi cc 0 .null .null, by simp [addIP4Node, allocateIP4Node],
        by simp [avl, height], by simp [height], by simp, by simp [height]⟩
  | node olo ohi occ B L R ihL ihR =>
    simp only [avl] at h
    obtain ⟨hL, hR, hB, hB1, hB2⟩ := h
    by_cases hlt : lo < olo
    · obtain ⟨r, L', e, hL', hh, hr, hg⟩ := ihL hL
      obtain ⟨r2, t2, e2, ht2, hh2, hr2, hg2⟩ :=
        addIP4Tail_spec (-r) olo ohi occ B L' R (height L) (height R) hL' hR hB hB1 hB2
          (by omega) (by omega) (fun hc => ⟨by omega, rfl, hg (by omega)⟩) (by omega)
      refine ⟨r2, t2, by simp [addIP4Node, hlt, e, e2], ht2, ?_, hr2, fun h1 => Or.inr (hg2 h1)⟩
      simp only [height]
      omega
    · by_cases hgt : lo > olo
      · obtain ⟨r, R', e, hR', hh, hr, hg⟩ := ihR hR
        obtain ⟨r2, t2, e2, ht2, hh2, hr2, hg2⟩ :=
          addIP4Tail_spec r olo ohi occ B L R' (height L) (height R) hL hR' hB hB1 hB2
            (by omega) (by omega) (by omega) (fun hc => ⟨by omega, rfl, hg hc⟩)
        refine ⟨r2, t2, by simp [addIP4Node, hlt, hgt, e, e2], ht2, ?_, hr2,
          fun h1 => Or.inr (hg2 h1)⟩
        simp only [height]
        omega
      · exact ⟨0, .node olo ohi occ B L R, by simp [addIP4Node, hlt, hgt],
          ⟨hL, hR, hB, hB1, hB2⟩, by simp, by simp, by simp⟩

theorem pickPrevIP4Node_spec (t : IP4Node) (h : avl t) (hn : t ≠ .null) :
    ∃ r t' x, pickPrevIP4Node t = some (r, t', x) ∧ avl t' ∧
      (height t' : Int) + r = (height t : Int) ∧ (r = 0 ∨ r = 1) := by
  induction t with
  | null => exact absurd rfl hn
  | node lo hi cc B L R _ ihR =>
    simp only [avl] at h
    obtain ⟨hL, hR, hB, hB1, hB2⟩ := h
    cases R with
    | node rlo rhi rcc rB rL rR =>
      obtain ⟨r, R', x, e, hR', hh, hr⟩ := ihR hR (by simp)
      obtain ⟨r2, t2, e2, ht2, hh2, hr2⟩ :=
        removeIP4Tail_spec (-r) lo hi cc B L R' (height L) (height (.node rlo rhi rcc rB rL rR))
          hL hR' hB hB1 hB2 (by omega) (by omega) (by omega) (by omega)
      exact ⟨r2, t2, x, by rw [pickPrevIP4Node]; simp only [e, e2], ht2, by simp only [height] at *; omega, hr2⟩
    | null =>
      cases L with
      | node plo phi pcc pB pL pR =>
        simp only [avl, height] at hL hB
        refine ⟨cbool (pB = 0), .node plo phi pcc pB pL pR, ⟨lo, hi, cc⟩, by simp [pickPrevIP4Node], ?_⟩
        simp only [avl, height, cbool]
        refine ⟨hL, ?_, ?_⟩ <;> (try split) <;> omega
      | null =>
        exact ⟨1, .null, ⟨lo, hi, cc⟩, by simp [pickPrevIP4Node], trivial, by simp [height], by simp⟩

theorem pickNextIP4Node_spec (t : IP4Node) (h : avl t) (hn : t ≠ .null) :
    ∃ r t' x, pickNextIP4Node t = some (r, t', x) ∧ avl t' ∧
      (height t' : Int) + r = (height t : Int) ∧ (r = 0 ∨ r = 1) := by
  induction t with
  | null => exact absurd rfl hn
  | node lo hi cc B L R ihL _ =>
    simp only [avl] at h
    obtain ⟨hL, hR, hB, hB1, hB2⟩ := h
    cases L with
    | node llo lhi lcc lB lL lR =>
      obtain ⟨r, L', x, e, hL', hh, hr⟩ := ihL hL (by simp)
      obtain ⟨r2, t2, e2, ht2, hh2, hr2⟩ :=
        removeIP4Tail_spec r lo hi cc B L' R (height (.node llo lhi lcc lB lL lR)) (height R)
          hL' hR hB hB1 hB2 (by omega) (by omega) (by omega) (by omega)
      exact ⟨r2, t2, x, by rw [pickNextIP4Node]; simp only [e, e2], ht2, by simp only [height] at *; omega, hr2⟩
    | null =>
      cases R with
      | node qlo qhi qcc qB qL qR =>
        simp only [avl, height] at hR hB
        refine ⟨cbool (qB = 0), .node qlo qhi qcc qB qL qR, ⟨lo, hi, cc⟩, by simp [pickNextIP4Node], ?_⟩
        simp only [avl, height, cbool]
        refine ⟨hR, ?_, ?_⟩ <;> (try split) <;> omega
      | null =>
        exact ⟨1, .null, ⟨lo, hi, cc⟩, by simp [pickNextIP4Node], trivial, by simp [height], by simp⟩

theorem removeIP4Two_spec (b : Int) (p q : IP4Node) (hp : avl p) (hq : avl q)
    (hpn : p ≠ .null) (hqn : q ≠ .null)
    (hB : b = (height q : Int) - (height p : Int)) (hB1 : -1 ≤ b) (hB2 : b ≤ 1) :
    ∃ r t, removeIP4Two b p q = some (r, t) ∧ avl t ∧
      (height t : Int) + r = (max (height p) (height q) + 1 : Nat) ∧ (r = 0 ∨ r = 1) := by
  unfold removeIP4Two
  by_cases hb : b = -1
  · simp only [hb, if_true]
    cases p with
    | null => exact absurd rfl hpn
    | node plo phi pcc pB pL pR =>
      cases pR with
      | null =>
        have hp' := hp
        simp only [avl, height] at hp'
        obtain ⟨hpL, -, hpB, hp1, hp2⟩ := hp'
        obtain ⟨r2, t2, e2, ht2, hh2, hr2⟩ :=
          removeIP4Tail_spec 1 plo phi pcc (-1) pL q
            (height (.node plo phi pcc pB pL .null)) (height q)
            hpL hq (by omega) (by omega) (by omega) (by omega) (by omega) (by omega)
            (fun _ => ⟨by simp only [height]; omega, rfl⟩)
        exact ⟨r2, t2, e2, ht2, hh2, hr2⟩
      | node rlo rhi rcc rB rL rR =>
        obtain ⟨r, p', x, e, hp', hh, hr⟩ :=
          pickPrevIP4Node_spec (.node plo phi pcc pB pL (.node rlo rhi rcc rB rL rR)) hp (by simp)
        obtain ⟨r2, t2, e2, ht2, hh2, hr2⟩ :=
          removeIP4Tail_spec r x.lo x.hi x.cc (-1) p' q
            (height (.node plo phi pcc pB pL (.node rlo rhi rcc rB rL rR))) (height q)
            hp' hq (by omega) (by omega) (by omega) (by omega) (by omega) (by omega) (by omega)
        simp only [e]
        exact ⟨r2, t2, e2, ht2, hh2, hr2⟩
  · simp only [hb, if_false]
    cases q with
    | null => exact absurd rfl hqn
    | node qlo qhi qcc qB qL qR =>
      cases qL with
      | null =>
        have hq' := hq
        simp only [avl, height] at hq'
        obtain ⟨-, hqR, hqB, hq1, hq2⟩ := hq'
        obtain ⟨r2, t2, e2, ht2, hh2, hr2⟩ :=
          removeIP4Tail_spec (-1) qlo qhi qcc b p qR
            (height p) (height (.node qlo qhi qcc qB .null qR))
            hp hqR hB hB1 hB2 (by omega) (by omega)
            (fun _ => ⟨by simp only [height]; omega, rfl⟩) (by omega)
        exact ⟨r2, t2, e2, ht2, hh2, hr2⟩
      | node llo lhi lcc lB lL lR =>
        obtain ⟨r, q', x, e, hq', hh, hr⟩ :=
          pickNextIP4Node_spec (.node qlo qhi qcc qB (.node llo lhi lcc lB lL lR) qR) hq (by simp)
        obtain ⟨r2, t2, e2, ht2, hh2, hr2⟩ :=
          removeIP4Tail_spec (-r) x.lo x.hi x.cc b p q'
            (height p) (height (.node qlo qhi qcc qB (.node llo lhi lcc lB lL lR) qR))
            hp hq' hB hB1 hB2 (by omega) (by omega) (by omega) (by omega)
        simp only [e]
        exact ⟨r2, t2, e2, ht2, hh2, hr2⟩

theorem removeIP4Node_spec (ip : Nat) (t : IP4Node) (h : avl t) :
    ∃ r t', removeIP4Node ip t = some (r, t') ∧ avl t' ∧
      (height t' : Int) + r = (height t : Int) ∧ (r = 0 ∨ r = 1) := by
  induction t with
  | null => exact ⟨0, .null, by simp [removeIP4Node], trivial, by simp, by simp⟩
  | node lo hi cc B L R ihL ihR =>
    have h' := h
    simp only [avl] at h'
    obtain ⟨hL, hR, hB, hB1, hB2⟩ := h'
    by_cases hlt : ip < lo
    · obtain ⟨r, L', e, hL', hh, hr⟩ := ihL hL
      obtain ⟨r2, t2, e2, ht2, hh2, hr2⟩ :=
        removeIP4Tail_spec r lo hi cc B L' R (height L) (height R) hL' hR hB hB1 hB2
          (by omega) (by omega) (by omega) (by omega)
      exact ⟨r2, t2, by rw [removeIP4Node]; simp only [hlt, if_true, e, e2], ht2,
        by simp only [height]; omega, hr2⟩
    · by_cases hgt : ip > lo
      · obtain ⟨r, R', e, hR', hh, hr⟩ := ihR hR
        obtain ⟨r2, t2, e2, ht2, hh2, hr2⟩ :=
          removeIP4Tail_spec (-r) lo hi cc B L R' (height L) (height R) hL hR' hB hB1 hB2
            (by omega) (by omega) (by omega) (by omega)
        exact ⟨r2, t2, by rw [removeIP4Node]; simp only [hlt, hgt, if_true, if_false, e, e2], ht2,
          by simp only [height]; omega, hr2⟩
      · cases L with
        | null =>
          refine ⟨1, R, by rw [removeIP4Node]; simp only [hlt, hgt, if_false, removeIP4Found], hR, ?_, by simp⟩
          simp only [height] at *
          omega
        | node plo phi pcc pB pL pR =>
          cases R with
          | null =>
            refine ⟨1, .node plo phi pcc pB pL pR,
              by rw [removeIP4Node]; simp only [hlt, hgt, if_false, removeIP4Found], hL, ?_, by simp⟩
            simp only [height] at *
            omega
          | node qlo qhi qcc qB qL qR =>
            obtain ⟨r2, t2, e2, ht2, hh2, hr2⟩ :=
              removeIP4Two_spec B (.node plo phi pcc pB pL pR) (.node qlo qhi qcc qB qL qR)
                hL hR (by simp) (by simp) hB hB1 hB2
            exact ⟨r2, t2, by rw [removeIP4Node]; simp only [hlt, hgt, if_false, removeIP4Found, e2], ht2,
              by simp only [height] at *; omega, hr2⟩

/-! ## The in-order record sequence -/

theorem balance_serialize (o t : IP4Node) (r : Int)
    (h : balanceIP4Node o = some (r, t)) : serializeIP4Tree t = serializeIP4Tree o := by
  unfold balanceIP4Node at h
  split at h
  · simp at h
  · split at h
    · split at h
      · simp at h; rw [← h.2]
      · split at h
        · split at h
          · simp at h
          · simp at h; rw [← h.2]; simp [serializeIP4Tree]
        · simp at h; rw [← h.2]; simp [serializeIP4Tree]
    · split at h
      · split at h
        · simp at h; rw [← h.2]
        · split at h
          · split at h
            · simp at h
            · simp at h; rw [← h.2]; simp [serializeIP4Tree]
          · simp at h; rw [← h.2]; simp [serializeIP4Tree]
      · simp at h; rw [← h.2]

theorem addIP4Tail_serialize (change : Int) (lo hi cc : Nat) (B : Int) (L R t : IP4Node)
    (r : Int) (h : addIP4Tail change lo hi cc B L R = some (r, t)) :
    serializeIP4Tree t = serializeIP4Tree L ++ ⟨lo, hi, cc⟩ :: serializeIP4Tree R := by
  unfold addIP4Tail at h
  split at h
  · split at h
    · split at h
      · simp at h
      · rename_i r' t' e
        simp at h
        rw [← h.2, balance_serialize _ _ _ e, serializeIP4Tree]
    · simp at h; rw [← h.2, serializeIP4Tree]
  · simp at h; rw [← h.2, serializeIP4Tree]

theorem removeIP4Tail_serialize (change : Int) (lo hi cc : Nat) (B : Int) (L R t : IP4Node)
    (r : Int) (h : removeIP4Tail change lo hi cc B L R = some (r, t)) :
    serializeIP4Tree t = serializeIP4Tree L ++ ⟨lo, hi, cc⟩ :: serializeIP4Tree R := by
  unfold removeIP4Tail at h
  split at h
  · split at h
    · rw [balance_serialize _ _ _ h, serializeIP4Tree]
    · simp at h; rw [← h.2, serializeIP4Tree]
  · simp at h; rw [← h.2, serializeIP4Tree]

theorem pickPrevIP4Node_serialize (t t' : IP4Node) (r : Int) (x : IP4Set)
    (h : pickPrevIP4Node t = some (r, t', x)) :
    serializeIP4Tree t = serializeIP4Tree t' ++ [x] := by
  induction t generalizing t' r x with
  | null => simp [pickPrevIP4Node] at h
  | node lo hi cc B L R _ ihR =>
    cases R with
    | node rlo rhi rcc rB rL rR =>
      rw [pickPrevIP4Node] at h
      split at h
      · simp at h
      · rename_i r1 R1 x1 e1
        split at h
        · simp at h
        · rename_i c t1 e2
          simp at h
          obtain ⟨-, h2, h3⟩ := h
          subst h2 h3
          rw [removeIP4Tail_serialize _ _ _ _ _ _ _ _ _ e2, serializeIP4Tree, ihR _ _ _ e1]
          simp
    | null =>
      cases L with
      | node plo phi pcc pB pL pR =>
        simp [pickPrevIP4Node] at h
        obtain ⟨-, h2, h3⟩ := h
        subst h2 h3
        simp [serializeIP4Tree]
      | null =>
        simp [pickPrevIP4Node] at h
        obtain ⟨-, h2, h3⟩ := h
        subst h2 h3
        simp [serializeIP4Tree]

theorem pickNextIP4Node_serialize (t t' : IP4Node) (r : Int) (x : IP4Set)
    (h : pickNextIP4Node t = some (r, t', x)) :
    serializeIP4Tree t = x :: serializeIP4Tree t' := by
  induction t generalizing t' r x with
  | null => simp [pickNextIP4Node] at h
  | node lo hi cc B L R ihL _ =>
    cases L with
    | node llo lhi lcc lB lL lR =>
      rw [pickNextIP4Node] at h
      split at h
      · simp at h
      · rename_i r1 L1 x1 e1
        split at h
        · simp at h
        · rename_i c t1 e2
          simp at h
          obtain ⟨-, h2, h3⟩ := h
          subst h2 h3
          rw [removeIP4Tail_serialize _ _ _ _ _ _ _ _ _ e2, serializeIP4Tree, ihL _ _ _ e1]
          simp
    | null =>
      cases R with
      | node qlo qhi qcc qB qL qR =>
        simp [pickNextIP4Node] at h
        obtain ⟨-, h2, h3⟩ := h
        subst h2 h3
        simp [serializeIP4Tree]
      | null =>
        simp [pickNextIP4Node] at h
        obtain ⟨-, h2, h3⟩ := h
        subst h2 h3
        simp [serializeIP4Tree]

theorem removeIP4Two_serialize (b : Int) (p q t : IP4Node) (r : Int)
    (h : removeIP4Two b p q = some (r, t)) :
    serializeIP4Tree t = serializeIP4Tree p ++ serializeIP4Tree q := by
  unfold removeIP4Two at h
  split at h
  · split at h
    · simp at h
    · split at h
      · rw [removeIP4Tail_serialize _ _ _ _ _ _ _ _ _ h]
        simp [serializeIP4Tree]
      · split at h
        · simp at h
        · rename_i r1 p1 x1 e1
          rw [removeIP4Tail_serialize _ _ _ _ _ _ _ _ _ h,
            pickPrevIP4Node_serialize _ _ _ _ e1]
          simp
  · split at h
    · simp at h
    · split at h
      · rw [removeIP4Tail_serialize _ _ _ _ _ _ _ _ _ h]
        simp [serializeIP4Tree]
      · split at h
        · simp at h
        · rename_i r1 q1 x1 e1
          rw [removeIP4Tail_serialize _ _ _ _ _ _ _ _ _ h,
            pickNextIP4Node_serialize _ _ _ _ e1]

theorem removeIP4Found_serialize (b : Int) (p q t : IP4Node) (r : Int)
    (h : removeIP4Found b p q = some (r, t)) :
    serializeIP4Tree t = serializeIP4Tree p ++ serializeIP4Tree q := by
  unfold removeIP4Found at h
  split at h
  · simp at h; rw [← h.2]; simp [serializeIP4Tree]
  · split at h
    · simp at h; rw [← h.2]; simp [serializeIP4Tree]
    · exact removeIP4Two_serialize _ _ _ _ _ h

theorem ordered_iff_pairwise (t : IP4Node) :
    ordered t ↔ (serializeIP4Tree t).Pairwise (fun a b => a.lo < b.lo) := by
  induction t with
  | null => simp [ordered, serializeIP4Tree]
  | node lo hi cc B L R ihL ihR =>
    simp only [ordered, serializeIP4Tree, List.pairwise_append, List.pairwise_cons, ihL, ihR,
      List.mem_cons]
    constructor
    · rintro ⟨h1, h2, h3, h4⟩
      refine ⟨h1, ⟨h4, h2⟩, ?_⟩
      intro a ha b hb
      rcases hb with hb | hb
      · subst hb; exact h3 a ha
      · exact lt_trans (h3 a ha) (h4 b hb)
    · rintro ⟨h1, ⟨h4, h2⟩, h5⟩
      exact ⟨h1, h2, fun a ha => h5 a ha _ (Or.inl rfl), h4⟩

theorem addIP4Node_serialize (lo hi cc : Nat) (t t' : IP4Node) (r : Int)
    (ho : ordered t) (hk : ∀ x ∈ serializeIP4Tree t, x.lo ≠ lo)
    (h : addIP4Node true lo hi cc t = some (r, t')) :
    serializeIP4Tree t' =
      (serializeIP4Tree t).filter (fun x => decide (x.lo < lo)) ++
        ⟨lo, hi, cc⟩ :: (serializeIP4Tree t).filter (fun x => decide (lo < x.lo)) := by
  induction t generalizing t' r with
  | null =>
    simp [addIP4Node, allocateIP4Node] at h
    rw [← h.2]
    simp [serializeIP4Tree]
  | node olo ohi occ B L R ihL ihR =>
    simp only [ordered] at ho
    obtain ⟨hoL, hoR, hlL, hlR⟩ := ho
    simp only [serializeIP4Tree, List.mem_append, List.mem_cons] at hk
    rw [addIP4Node] at h
    split at h
    · rename_i hlt
      split at h
      · simp at h
      · rename_i r1 L1 e1
        rw [addIP4Tail_serialize _ _ _ _ _ _ _ _ _ h,
          ihL _ _ hoL (fun x hx => hk x (Or.inl hx)) e1]
        have h1 : (serializeIP4Tree R).filter (fun x => decide (x.lo < lo)) = [] := by
          rw [List.filter_eq_nil_iff]
          intro a ha
          have := hlR a ha
          simp; omega
        have h2 : (serializeIP4Tree R).filter (fun x => decide (lo < x.lo)) = serializeIP4Tree R := by
          rw [List.filter_eq_self]
          intro a ha
          have := hlR a ha
          simp; omega
        have h3 : ¬ olo < lo := by omega
        simp [serializeIP4Tree, List.filter_cons, h1, h2, h3, hlt]
    · split at h
      · rename_i hlt hgt
        split at h
        · simp at h
        · rename_i r1 R1 e1
          rw [addIP4Tail_serialize _ _ _ _ _ _ _ _ _ h,
            ihR _ _ hoR (fun x hx => hk x (Or.inr (Or.inr hx))) e1]
          have h1 : (serializeIP4Tree L).filter (fun x => decide (x.lo < lo)) = serializeIP4Tree L := by
            rw [List.filter_eq_self]
            intro a ha
            have := hlL a ha
            simp; omega
          have h2 : (serializeIP4Tree L).filter (fun x => decide (lo < x.lo)) = [] := by
            rw [List.filter_eq_nil_iff]
            intro a ha
            have := hlL a ha
            simp; omega
          have h3 : olo < lo := by omega
          simp [serializeIP4Tree, List.filter_cons, h1, h2, h3, hlt]
      · rename_i hlt hgt
        have hne := hk ⟨olo, ohi, occ⟩ (Or.inr (Or.inl rfl))
        simp only at hne
        omega

theorem removeIP4Node_serialize (ip : Nat) (t t' : IP4Node) (r : Int)
    (ho : ordered t) (h : removeIP4Node ip t = some (r, t')) :
    serializeIP4Tree t' = (serializeIP4Tree t).filter (fun x => decide (x.lo ≠ ip)) := by
  induction t generalizing t' r with
  | null =>
    simp [removeIP4Node] at h
    rw [← h.2]
    simp [serializeIP4Tree]
  | node lo hi cc B L R ihL ihR =>
    simp only [ordered] at ho
    obtain ⟨hoL, hoR, hlL, hlR⟩ := ho
    have hL : ip ≤ lo → (serializeIP4Tree R).filter (fun x => decide (x.lo ≠ ip)) =
        serializeIP4Tree R := by
      intro hle
      rw [List.filter_eq_self]
      intro a ha
      have := hlR a ha
      simp; omega
    have hR : lo ≤ ip → (serializeIP4Tree L).filter (fun x => decide (x.lo ≠ ip)) =
        serializeIP4Tree L := by
      intro hle
      rw [List.filter_eq_self]
      intro a ha
      have := hlL a ha
      simp; omega
    rw [removeIP4Node] at h
    split at h
    · rename_i hlt
      split at h
      · simp at h
      · rename_i r1 L1 e1
        rw [removeIP4Tail_serialize _ _ _ _ _ _ _ _ _ h, ihL _ _ hoL e1]
        have h3 : decide (lo ≠ ip) = true := decide_eq_true (by omega)
        simp only [serializeIP4Tree, List.filter_append, List.filter_cons, hL (by omega), h3,
          if_true]
    · split at h
      · rename_i hlt hgt
        split at h
        · simp at h
        · rename_i r1 R1 e1
          rw [removeIP4Tail_serialize _ _ _ _ _ _ _ _ _ h, ihR _ _ hoR e1]
          have h3 : decide (lo ≠ ip) = true := decide_eq_true (by omega)
          simp only [serializeIP4Tree, List.filter_append, List.filter_cons, hR (by omega), h3,
            if_true]
      · rename_i hlt hgt
        rw [removeIP4Found_serialize _ _ _ _ _ h]
        have h3 : decide (lo ≠ ip) = false := decide_eq_false (by omega)
        simp only [serializeIP4Tree, List.filter_append, List.filter_cons, hR (by omega),
          hL (by omega), h3, Bool.false_eq_true, if_false]

theorem addIP4Node_alloc_fails (lo hi cc : Nat) (t : IP4Node) :
    addIP4Node false lo hi cc t = some (0, t) := by
  induction t with
  | null => simp [addIP4Node, allocateIP4Node]
  | node olo ohi occ B L R ihL ihR =>
    rw [addIP4Node, ihL, ihR]
    simp [addIP4Tail]

theorem addIP4Node_existing (alloc : Bool) (lo hi cc : Nat) (t : IP4Node) (ho : ordered t)
    (hk : ∃ x ∈ serializeIP4Tree t, x.lo = lo) :
    addIP4Node alloc lo hi cc t = some (0, t) := by
  induction t with
  | null => simp [serializeIP4Tree] at hk
  | node olo ohi occ B L R ihL ihR =>
    simp only [ordered] at ho
    obtain ⟨hoL, hoR, hlL, hlR⟩ := ho
    obtain ⟨x, hx, hxl⟩ := hk
    simp only [serializeIP4Tree, List.mem_append, List.mem_cons] at hx
    rw [addIP4Node]
    split
    · rename_i hlt
      have hxL : x ∈ serializeIP4Tree L := by
        rcases hx with hx | hx | hx
        · exact hx
        · subst hx; simp only at hxl; omega
        · have := hlR x hx; omega
      rw [ihL hoL ⟨x, hxL, hxl⟩]
      simp [addIP4Tail]
    · split
      · rename_i hlt hgt
        have hxR : x ∈ serializeIP4Tree R := by
          rcases hx with hx | hx | hx
          · have := hlL x hx; omega
          · subst hx; simp only at hxl; omega
          · exact hx
        rw [ihR hoR ⟨x, hxR, hxl⟩]
        simp [addIP4Tail]
      · rfl

theorem removeIP4Node_absent (ip : Nat) (t : IP4Node)
    (h : ∀ x ∈ serializeIP4Tree t, x.lo ≠ ip) :
    removeIP4Node ip t = some (0, t) := by
  induction t with
  | null => simp [removeIP4Node]
  | node lo hi cc B L R ihL ihR =>
    simp only [serializeIP4Tree, List.mem_append, List.mem_cons] at h
    rw [removeIP4Node, ihL (fun x hx => h x (Or.inl hx)), ihR (fun x hx => h x (Or.inr (Or.inr hx)))]
    have hne := h ⟨lo, hi, cc⟩ (Or.inr (Or.inl rfl))
    simp only at hne
    split
    · simp [removeIP4Tail]
    · split
      · simp [removeIP4Tail]
      · omega

theorem sorted_split (lo : Nat) (l : List IP4Set)
    (hs : l.Pairwise (fun a b => a.lo < b.lo)) (hk : ∀ x ∈ l, x.lo ≠ lo) :
    l = l.filter (fun x => decide (x.lo < lo)) ++ l.filter (fun x => decide (lo < x.lo)) := by
  induction l with
  | nil => simp
  | cons a l ih =>
    simp only [List.pairwise_cons] at hs
    obtain ⟨ha, hl⟩ := hs
    have hne := hk a (List.mem_cons_self _ _)
    have ih' := ih hl (fun x hx => hk x (List.mem_cons_of_mem _ hx))
    by_cases hlt : a.lo < lo
    · have h2 : ¬ lo < a.lo := by omega
      simp only [List.filter_cons, hlt, h2, decide_True, decide_False, if_true, if_false,
        Bool.false_eq_true, List.cons_append]
      rw [← ih']
    · have h2 : lo < a.lo := by omega
      have h1 : l.filter (fun x => decide (x.lo < lo)) = [] := by
        rw [List.filter_eq_nil_iff]
        intro b hb
        have := ha b hb
        simp; omega
      have h3 : l.filter (fun x => decide (lo < x.lo)) = l := by
        rw [List.filter_eq_self]
        intro b hb
        have := ha b hb
        simp; omega
      simp only [List.filter_cons, hlt, h2, decide_True, decide_False, if_true, if_false,
        Bool.false_eq_true, h1, h3, List.nil_append]

theorem keys_unique (t : IP4Node) (ho : ordered t) (a b : IP4Set)
    (ha : a ∈ serializeIP4Tree t) (hb : b ∈ serializeIP4Tree t) (hab : a.lo = b.lo) : a = b := by
  rw [ordered_iff_pairwise] at ho
  by_contra hne
  have hp : (serializeIP4Tree t).Pairwise (fun a b => a.lo ≠ b.lo) :=
    ho.imp (fun h => Nat.ne_of_lt h)
  exact hp.forall (fun _ _ h => Ne.symm h) ha hb hne hab

theorem addIP4Node_ordered (alloc : Bool) (lo hi cc : Nat) (t t' : IP4Node) (r : Int)
    (ho : ordered t) (h : addIP4Node alloc lo hi cc t = some (r, t')) : ordered t' := by
  cases alloc with
  | false =>
    rw [addIP4Node_alloc_fails] at h
    simp at h
    rw [← h.2]; exact ho
  | true =>
    by_cases hk : ∃ x ∈ serializeIP4Tree t, x.lo = lo
    · rw [addIP4Node_existing true lo hi cc t ho hk] at h
      simp at h
      rw [← h.2]; exact ho
    · have hk' : ∀ x ∈ serializeIP4Tree t, x.lo ≠ lo := fun x hx hxl => hk ⟨x, hx, hxl⟩
      rw [ordered_iff_pairwise, addIP4Node_serialize lo hi cc t t' r ho hk' h]
      rw [ordered_iff_pairwise] at ho
      rw [List.pairwise_append]
      refine ⟨ho.sublist (List.filter_sublist _), ?_, ?_⟩
      · rw [List.pairwise_cons]
        refine ⟨?_, ho.sublist (List.filter_sublist _)⟩
        intro a ha
        simpa using (List.mem_filter.1 ha).2
      · intro a ha b hb
        have h1 : a.lo < lo := by simpa using (List.mem_filter.1 ha).2
        rcases List.mem_cons.1 hb with hb | hb
        · subst hb; exact h1
        · have h2 : lo < b.lo := by simpa using (List.mem_filter.1 hb).2
          omega

theorem removeIP4Node_ordered (ip : Nat) (t t' : IP4Node) (r : Int)
    (ho : ordered t) (h : removeIP4Node ip t = some (r, t')) : ordered t' := by
  rw [ordered_iff_pairwise, removeIP4Node_serialize ip t t' r ho h]
  rw [ordered_iff_pairwise] at ho
  exact ho.sublist (List.filter_sublist _)

theorem addCCNode_alloc_fails (cc ui : Nat) (t : CCNode) :
    addCCNode false cc ui t = some (0, t) := by
  induction t with
  | null => simp [addCCNode, allocateCCNode]
  | node occ oui B L R ihL ihR =>
    rw [addCCNode, ihL, ihR]
    simp [addCCTail]

/-! ## The overlap and adjacency search -/

theorem netTest_iff (lo hi cc nlo nhi ncc : Nat) (hn : nlo ≤ nhi) (hnb : nhi < 4294967296)
    (hq : lo ≤ hi) (hqb : hi < 4294967296) :
    netTest lo hi cc nlo nhi ncc ↔ netMatch lo hi cc ⟨nlo, nhi, ncc⟩ := by
  unfold netMatch netTest
  simp only
  by_cases hc : cc = ncc
  · simp only [hc, if_true, true_and]
    omega
  · have hc' : ¬ ncc = cc := fun h => hc h.symm
    simp only [hc, hc', if_false, false_and, or_false]
    omega

theorem findNet4Node_sound (lo hi cc : Nat) (t : IP4Node) (hr : ranges t) (hb : bounded32 t)
    (hq : lo ≤ hi) (hqb : hi < 4294967296) (nlo nhi ncc : Nat) (B : Int) (L R : IP4Node)
    (h : findNet4Node lo hi cc t = .node nlo nhi ncc B L R) :
    ⟨nlo, nhi, ncc⟩ ∈ serializeIP4Tree t ∧ netMatch lo hi cc ⟨nlo, nhi, ncc⟩ := by
  induction t with
  | null => simp [findNet4Node] at h
  | node olo ohi occ oB oL oR ihL ihR =>
    have hrL : ranges oL := fun a ha => hr a (by simp [serializeIP4Tree, ha])
    have hrR : ranges oR := fun a ha => hr a (by simp [serializeIP4Tree, ha])
    have hbL : bounded32 oL := fun a ha => hb a (by simp [serializeIP4Tree, ha])
    have hbR : bounded32 oR := fun a ha => hb a (by simp [serializeIP4Tree, ha])
    have hro : olo ≤ ohi := hr ⟨olo, ohi, occ⟩ (by simp [serializeIP4Tree])
    have hbo := (hb ⟨olo, ohi, occ⟩ (by simp [serializeIP4Tree])).2
    simp only at hbo
    rw [findNet4Node] at h
    split at h
    · rename_i htest
      simp only [IP4Node.node.injEq] at h
      obtain ⟨h1, h2, h3, -⟩ := h
      subst h1 h2 h3
      exact ⟨by simp [serializeIP4Tree], (netTest_iff lo hi cc olo ohi occ hro hbo hq hqb).1 htest⟩
    · split at h
      · obtain ⟨hm, hn⟩ := ihL hrL hbL h
        exact ⟨by simp [serializeIP4Tree, hm], hn⟩
      · obtain ⟨hm, hn⟩ := ihR hrR hbR h
        exact ⟨by simp [serializeIP4Tree, hm], hn⟩

theorem findNet4Node_complete (lo hi cc : Nat) (t : IP4Node) (ho : ordered t) (hd : disjoint t)
    (hr : ranges t) (hb : bounded32 t) (hq : lo ≤ hi) (hqb : hi < 4294967296)
    (hex : ∃ n ∈ serializeIP4Tree t, netMatch lo hi cc n) :
    findNet4Node lo hi cc t ≠ .null := by
  induction t with
  | null => simp [serializeIP4Tree] at hex
  | node olo ohi occ oB oL oR ihL ihR =>
    simp only [ordered] at ho
    obtain ⟨hoL, hoR, hlL, hlR⟩ := ho
    have hdL : disjoint oL := fun a ha b hb hab =>
      hd a (by simp [serializeIP4Tree, ha]) b (by simp [serializeIP4Tree, hb]) hab
    have hdR : disjoint oR := fun a ha b hb hab =>
      hd a (by simp [serializeIP4Tree, ha]) b (by simp [serializeIP4Tree, hb]) hab
    have hrL : ranges oL := fun a ha => hr a (by simp [serializeIP4Tree, ha])
    have hrR : ranges oR := fun a ha => hr a (by simp [serializeIP4Tree, ha])
    have hbL : bounded32 oL := fun a ha => hb a (by simp [serializeIP4Tree, ha])
    have hbR : bounded32 oR := fun a ha => hb a (by simp [serializeIP4Tree, ha])
    have hro : olo ≤ ohi := hr ⟨olo, ohi, occ⟩ (by simp [serializeIP4Tree])
    have hbo := (hb ⟨olo, ohi, occ⟩ (by simp [serializeIP4Tree])).2
    simp only at hbo
    have hdo : ∀ a ∈ serializeIP4Tree (.node olo ohi occ oB oL oR), a ≠ ⟨olo, ohi, occ⟩ →
        a.hi < olo ∨ ohi < a.lo := fun a ha hne =>
      hd a ha ⟨olo, ohi, occ⟩ (by simp [serializeIP4Tree]) hne
    obtain ⟨n, hn, hm⟩ := hex
    have hn' := hn
    simp only [serializeIP4Tree, List.mem_append, List.mem_cons] at hn'
    rw [findNet4Node]
    split
    · simp
    · rename_i htest
      have hno : ¬ netMatch lo hi cc ⟨olo, ohi, occ⟩ := fun h =>
        htest ((netTest_iff lo hi cc olo ohi occ hro hbo hq hqb).2 h)
      have hne : n ≠ ⟨olo, ohi, occ⟩ := fun h => hno (h ▸ hm)
      have hdn := hdo n hn hne
      have hrn := hr n hn
      unfold netMatch at hm hno
      simp only at hno
      split
      · rename_i hlt
        refine ihL hoL hdL hrL hbL ⟨n, ?_, hm⟩
        rcases hn' with h | h | h
        · exact h
        · exact absurd h hne
        · have := hlR n h
          omega
      · rename_i hlt
        refine ihR hoR hdR hrR hbR ⟨n, ?_, hm⟩
        rcases hn' with h | h | h
        · have := hlL n h
          omega
        · exact absurd h hne
        · exact h

theorem addIP4Node_mem (lo hi cc : Nat) (t t' : IP4Node) (r : Int)
    (ho : ordered t) (hk : ∀ x ∈ serializeIP4Tree t, x.lo ≠ lo)
    (h : addIP4Node true lo hi cc t = some (r, t')) (m : IP4Set) :
    m ∈ serializeIP4Tree t' ↔ m = ⟨lo, hi, cc⟩ ∨ m ∈ serializeIP4Tree t := by
  have h1 := sorted_split lo _ ((ordered_iff_pairwise t).1 ho) hk
  have h2 := addIP4Node_serialize lo hi cc t t' r ho hk h
  rw [h2]
  conv_rhs => rw [h1]
  simp only [List.mem_append, List.mem_cons]
  tauto

theorem runIP4Ops_valid (ops : List IP4Op) (t : IP4Node) (hv : avl t) (ho : ordered t) :
    ∃ t', runIP4Ops ops t = some t' ∧ avl t' ∧ ordered t' := by
  induction ops generalizing t with
  | nil => exact ⟨t, rfl, hv, ho⟩
  | cons op ops ih =>
    cases op with
    | add alloc lo hi cc =>
      obtain ⟨r, t1, e, h1, -⟩ := addIP4Node_spec alloc lo hi cc t hv
      have h2 := addIP4Node_ordered alloc lo hi cc t t1 r ho e
      obtain ⟨t', e', h'⟩ := ih t1 h1 h2
      exact ⟨t', by simp [runIP4Ops, applyIP4Op, e, e'], h'⟩
    | remove ip =>
      obtain ⟨r, t1, e, h1, -⟩ := removeIP4Node_spec ip t hv
      have h2 := removeIP4Node_ordered ip t t1 r ho e
      obtain ⟨t', e', h'⟩ := ih t1 h1 h2
      exact ⟨t', by simp [runIP4Ops, applyIP4Op, e, e'], h'⟩

/-! ## The bucket table of country codes -/

theorem cci_le_one (cce : Nat → Nat) (N cc : Nat) : cci cce N cc ≤ 1 := by
  unfold cci
  split <;> split <;> omega

theorem createCCTable_get (N i : Nat) (h : i < N) : (createCCTable N)[i]? = some .null := by
  unfold createCCTable
  rw [List.getElem?_replicate]
  simp [h]

theorem digitChar_toNat : ∀ d, d < 10 → (Nat.digitChar d).toNat = 48 + d := by
  decide

theorem strtolDigits_toDigitsCore (f n : Nat) (ds : List Char) (h : n < f) :
    strtolDigits 0 ((Nat.toDigitsCore 10 f n ds).map Char.toNat) =
      strtolDigits n (ds.map Char.toNat) := by
  induction f generalizing n ds with
  | zero => omega
  | succ f ih =>
    have hd := digitChar_toNat (n % 10) (Nat.mod_lt _ (by decide))
    have hstep : strtolDigits (n / 10) ((Nat.digitChar (n % 10) :: ds).map Char.toNat) =
        strtolDigits n (ds.map Char.toNat) := by
      have h1 : 48 ≤ 48 + n % 10 ∧ 48 + n % 10 ≤ 57 := by omega
      simp only [List.map_cons, strtolDigits, hd, h1, and_self, if_true]
      congr 1
      omega
    simp only [Nat.toDigitsCore]
    split
    · rename_i h0
      rw [← hstep, h0]
    · rename_i h0
      rw [ih (n / 10) _ (by omega), hstep]

theorem toDigitsCore_digits (f n : Nat) (ds : List Char) :
    ∀ c ∈ (Nat.toDigitsCore 10 f n ds).map Char.toNat,
      (48 ≤ c ∧ c ≤ 57) ∨ c ∈ ds.map Char.toNat := by
  induction f generalizing n ds with
  | zero => intro c hc; simp only [Nat.toDigitsCore] at hc; exact Or.inr hc
  | succ f ih =>
    have hd := digitChar_toNat (n % 10) (Nat.mod_lt _ (by decide))
    intro c hc
    simp only [Nat.toDigitsCore] at hc
    split at hc
    · simp only [List.map_cons, List.mem_cons] at hc
      rcases hc with hc | hc
      · left; omega
      · exact Or.inr hc
    · rcases ih _ _ c hc with h | h
      · exact Or.inl h
      · simp only [List.map_cons, List.mem_cons] at h
        rcases h with h | h
        · left; omega
        · exact Or.inr h

theorem decimal_digits (v : Nat) : ∀ c ∈ decimal v, 48 ≤ c ∧ c ≤ 57 := by
  intro c hc
  rcases toDigitsCore_digits (v + 1) v [] c hc with h | h
  · exact h
  · simp at h

theorem strtolDigits_decimal (v : Nat) : strtolDigits 0 (decimal v) = v := by
  unfold decimal Nat.toDigits
  rw [strtolDigits_toDigitsCore (v + 1) v [] (by omega)]
  simp [strtolDigits]

theorem dropWhile_eq_self (p : Nat → Bool) (l : List Nat) (h : ∀ c ∈ l, p c = false) :
    l.dropWhile p = l := by
  cases l with
  | nil => rfl
  | cons a l => simp [List.dropWhile, h a (List.mem_cons_self _ _)]

theorem trim_eq_self (s : List Nat) (h : ∀ c ∈ s, isspace c = false) : trim s = s := by
  unfold trim
  rw [dropWhile_eq_self isspace s h,
    dropWhile_eq_self isspace s.reverse (fun c hc => h c (List.mem_reverse.1 hc)),
    List.reverse_reverse]

theorem strtol_decimal (v : Nat) : strtol (decimal v) = min (v : Int) 9223372036854775807 := by
  have hd := decimal_digits v
  have hs : ∀ c ∈ decimal v, isspace c = false := by
    intro c hc
    have := hd c hc
    simp [isspace]
    omega
  unfold strtol
  rw [dropWhile_eq_self isspace _ hs]
  split
  · rename_i r heq
    have := hd 45 (by rw [heq]; exact List.mem_cons_self _ _)
    omega
  · rename_i r heq
    have := hd 43 (by rw [heq]; exact List.mem_cons_self _ _)
    omega
  · rw [strtolDigits_decimal]

theorem storeCCValue_decimal (len v : Nat) (h : len > 2) :
    storeCCValue len (61 :: decimal v) = min (v : Int) 9223372036854775807 := by
  unfold storeCCValue
  simp only [h, if_true]
  simp [List.dropWhile, strtol_decimal]

theorem isLetter_not_space (c : Nat) (h : isLetter c) : isspace c = false := by
  unfold isLetter at h
  simp [isspace]
  omega

theorem storeCC_token (cce : Nat → Nat) (N : Nat) (alloc : Bool) (table : List CCNode)
    (c1 c2 : Nat) (rest : List Nat) (root root' : CCNode) (r : Int)
    (hs : ∀ c ∈ c1 :: c2 :: rest, isspace c = false)
    (hroot : table[cci cce N (codeWord (toupper c1) (toupper c2))]? = some root)
    (hadd : addCCNode alloc (codeWord (toupper c1) (toupper c2))
      (if 0 < storeCCValue (rest.length + 2) rest ∧
          storeCCValue (rest.length + 2) rest < 4294967295 then
        (storeCCValue (rest.length + 2) rest).toNat else 0) root = some (r, root')) :
    storeCC cce N alloc table (c1 :: c2 :: rest) =
      some (table.set (cci cce N (codeWord (toupper c1) (toupper c2))) root') := by
  unfold storeCC
  rw [trim_eq_self _ hs]
  have hlen : strvlen (c1 :: c2 :: rest) = rest.length + 2 := by simp [strvlen]
  have hge : strvlen (c1 :: c2 :: rest) ≥ 2 := by omega
  simp only [hge, if_true, hroot]
  rw [hlen, hadd]

theorem findCC_set (cce : Nat → Nat) (N : Nat) (table : List CCNode) (cc : Nat) (root : CCNode)
    (h : cci cce N cc < table.length) :
    findCC cce N (table.set (cci cce N cc) root) cc = some (findCCNode cc root) := by
  unfold findCC
  rw [List.getElem?_set_self h]

theorem createCCTable_length (N : Nat) : (createCCTable N).length = N := by
  simp [createCCTable]

/-- The value that `storeCC` hands to `addCCNode` for the text `rest` after the
two code bytes of a token of length `rest.length + 2`. -/
theorem storeCC_fresh (cce : Nat → Nat) (N : Nat) (hN : 2 ≤ N) (c1 c2 : Nat)
    (rest : List Nat) (hs : ∀ c ∈ c1 :: c2 :: rest, isspace c = false) (ui : Nat)
    (hui : (if 0 < storeCCValue (rest.length + 2) rest ∧
          storeCCValue (rest.length + 2) rest < 4294967295 then
        (storeCCValue (rest.length + 2) rest).toNat else 0) = ui) :
    storeCC cce N true (createCCTable N) (c1 :: c2 :: rest) =
        some ((createCCTable N).set (cci cce N (codeWord (toupper c1) (toupper c2)))
          (.node (codeWord (toupper c1) (toupper c2)) ui 0 .null .null)) ∧
      findCC cce N ((createCCTable N).set (cci cce N (codeWord (toupper c1) (toupper c2)))
          (.node (codeWord (toupper c1) (toupper c2)) ui 0 .null .null))
          (codeWord (toupper c1) (toupper c2)) =
        some (.node (codeWord (toupper c1) (toupper c2)) ui 0 .null .null) := by
  have hi : cci cce N (codeWord (toupper c1) (toupper c2)) < N := by
    have := cci_le_one cce N (codeWord (toupper c1) (toupper c2))
    omega
  constructor
  · apply storeCC_token cce N true _ c1 c2 rest .null _ 1 hs (createCCTable_get N _ hi)
    rw [hui]
    simp [addCCNode, allocateCCNode]
  · rw [findCC_set cce N _ _ _ (by rw [createCCTable_length]; exact hi)]
    simp [findCCNode]

/-- A second `storeCC` of a code that is the root of its bucket changes
nothing. -/
theorem storeCC_again (cce : Nat → Nat) (N : Nat) (hN : 2 ≤ N) (alloc : Bool) (c1 c2 : Nat)
    (rest : List Nat) (hs : ∀ c ∈ c1 :: c2 :: rest, isspace c = false) (ui : Nat) :
    storeCC cce N alloc
        ((createCCTable N).set (cci cce N (codeWord (toupper c1) (toupper c2)))
          (.node (codeWord (toupper c1) (toupper c2)) ui 0 .null .null))
        (c1 :: c2 :: rest) =
      some ((createCCTable N).set (cci cce N (codeWord (toupper c1) (toupper c2)))
          (.node (codeWord (toupper c1) (toupper c2)) ui 0 .null .null)) := by
  have hi : cci cce N (codeWord (toupper c1) (toupper c2)) < N := by
    have := cci_le_one cce N (codeWord (toupper c1) (toupper c2))
    omega
  rw [storeCC_token cce N alloc _ c1 c2 rest
    (.node (codeWord (toupper c1) (toupper c2)) ui 0 .null .null)
    (.node (codeWord (toupper c1) (toupper c2)) ui 0 .null .null) 0 hs
    (List.getElem?_set_self (by rw [createCCTable_length]; exact hi))
    (by simp [addCCNode])]
  rw [List.set_set]

theorem token_not_space (c1 c2 v : Nat) (h1 : isLetter c1) (h2 : isLetter c2) :
    ∀ c ∈ c1 :: c2 :: 61 :: decimal v, isspace c = false := by
  intro c hc
  simp only [List.mem_cons] at hc
  rcases hc with hc | hc | hc | hc
  · subst hc; exact isLetter_not_space _ h1
  · subst hc; exact isLetter_not_space _ h2
  · subst hc; decide
  · have := decimal_digits v c hc
    simp [isspace]
    omega

theorem storeCC_value_of_decimal (v : Nat) :
    (if 0 < storeCCValue ((61 :: decimal v).length + 2) (61 :: decimal v) ∧
          storeCCValue ((61 :: decimal v).length + 2) (61 :: decimal v) < 4294967295 then
        (storeCCValue ((61 :: decimal v).length + 2) (61 :: decimal v)).toNat else 0) =
      if v < 4294967295 then v else 0 := by
  rw [storeCCValue_decimal _ v (by simp)]
  by_cases hv : v < 4294967295
  · simp only [hv, if_true]
    have hm : min (v : Int) 9223372036854775807 = v := by omega
    rw [hm]
    split
    · simp
    · omega
  · simp only [hv, if_false]
    split
    · omega
    · rfl

/-! ## The subnet decomposition -/

theorem log2floor_spec (f n : Nat) (h1 : 1 ≤ n) (h2 : n < 2 ^ f) :
    2 ^ log2floor f n ≤ n ∧ n < 2 ^ (log2floor f n + 1) := by
  induction f generalizing n with
  | zero => simp at h2; omega
  | succ f ih =>
    rw [log2floor]
    split
    · rename_i hlt
      simp
      omega
    · rename_i hge
      have hp : 2 ^ (f + 1) = 2 * 2 ^ f := by rw [pow_succ]; ring
      obtain ⟨i1, i2⟩ := ih (n / 2) (by omega) (by omega)
      have e1 : 2 ^ (log2floor f (n / 2) + 1) = 2 * 2 ^ log2floor f (n / 2) := by
        rw [pow_succ]; ring
      have e2 : 2 ^ (log2floor f (n / 2) + 1 + 1) = 2 * 2 ^ (log2floor f (n / 2) + 1) := by
        rw [pow_succ]; ring
      rw [e2]
      rw [e1] at i2 ⊢
      constructor <;> omega

theorem intlb4_1p_spec (x : Nat) (h : x < 4294967296) :
    2 ^ intlb4_1p x ≤ x + 1 ∧ x + 1 < 2 ^ (intlb4_1p x + 1) :=
  log2floor_spec 33 (x + 1) (by omega) (by norm_num; omega)

theorem align_test (ip m : Nat) (h : ip < 4294967296) :
    (ip + 4294967296 - (ip >>> m <<< m) % 4294967296) % 4294967296 = ip % 2 ^ m := by
  rw [Nat.shiftLeft_eq, Nat.shiftRight_eq_div_pow]
  have h1 := Nat.div_add_mod' ip (2 ^ m)
  generalize ip / 2 ^ m * 2 ^ m = q at *
  generalize ip % 2 ^ m = r at *
  omega

theorem alignLoop_spec (ip : Nat) (h : ip < 4294967296) (m0 m : Nat)
    (hm : alignLoop ip m0 = some m) :
    m ≤ m0 ∧ m < 32 ∧ 2 ^ m ∣ ip ∧ ∀ k, m < k → k ≤ m0 → ¬ 2 ^ k ∣ ip := by
  induction m0 with
  | zero =>
    rw [alignLoop] at hm
    split at hm
    · simp at hm
    · simp only [Option.some.injEq] at hm
      subst hm
      exact ⟨le_refl _, by omega, by simp, fun k h1 h2 => by omega⟩
  | succ m0 ih =>
    rw [alignLoop] at hm
    split at hm
    · simp at hm
    · rename_i h32
      rw [align_test ip (m0 + 1) h] at hm
      split at hm
      · rename_i hne
        obtain ⟨i1, i2, i3, i4⟩ := ih hm
        refine ⟨by omega, i2, i3, ?_⟩
        intro k h1 h2
        by_cases hk : k = m0 + 1
        · subst hk
          intro hd
          exact hne (Nat.mod_eq_zero_of_dvd hd)
        · exact i4 k h1 (by omega)
      · rename_i heq
        simp only [Option.some.injEq] at hm
        subst hm
        refine ⟨le_refl _, by omega, ?_, fun k h1 h2 => by omega⟩
        apply Nat.dvd_of_mod_eq_zero
        simpa using heq

theorem block_of_alignLoop (hi ip m : Nat) (hle : ip ≤ hi) (hhi : hi < 4294967296)
    (hm : alignLoop ip (intlb4_1p ((hi + 4294967296 - ip) % 4294967296)) = some m) :
    m < 32 ∧ 2 ^ m ∣ ip ∧ ip + 2 ^ m - 1 ≤ hi ∧
      ∀ k, 2 ^ k ∣ ip → ip + 2 ^ k - 1 ≤ hi → k ≤ m := by
  have hd : (hi + 4294967296 - ip) % 4294967296 = hi - ip := by omega
  rw [hd] at hm
  obtain ⟨i1, i2, i3, i4⟩ := alignLoop_spec ip (by omega) _ m hm
  obtain ⟨j1, j2⟩ := intlb4_1p_spec (hi - ip) (by omega)
  have hpow : 2 ^ m ≤ 2 ^ intlb4_1p (hi - ip) := Nat.pow_le_pow_right (by decide) i1
  refine ⟨i2, i3, by omega, ?_⟩
  intro k hk1 hk2
  by_contra hlt
  by_cases hk : k ≤ intlb4_1p (hi - ip)
  · exact i4 k (by omega) hk hk1
  · have : 2 ^ (intlb4_1p (hi - ip) + 1) ≤ 2 ^ k := Nat.pow_le_pow_right (by decide) (by omega)
    omega

theorem ip4Subnets_blocks (hi : Nat) (hhi : hi < 4294967296) (fuel ip : Nat) (hle : ip ≤ hi) :
    ∀ b ∈ (ip4Subnets hi fuel ip).1, blockValid hi b ∧ ip ≤ b.1 := by
  induction fuel generalizing ip with
  | zero => intro b hb; simp [ip4Subnets] at hb
  | succ fuel ih =>
    intro b hb
    rw [ip4Subnets] at hb
    split at hb
    · simp at hb
    · rename_i m hm
      obtain ⟨i1, i2, i3, i4⟩ := block_of_alignLoop hi ip m hle hhi hm
      have hsub : 32 - (32 - m) = m := by omega
      have hhead : blockValid hi (ip, 32 - m) := by
        unfold blockValid
        simp only [hsub]
        exact ⟨by omega, i2, i3, i4⟩
      have hpos : 0 < 2 ^ m := Nat.pow_pos (by decide)
      split at hb
      · rename_i hlt
        simp only [List.mem_cons] at hb
        rcases hb with hb | hb
        · subst hb; exact ⟨hhead, le_refl _⟩
        · by_cases hw : ip + 2 ^ m < 4294967296
          · have e : (ip + 2 ^ m) % 4294967296 = ip + 2 ^ m := Nat.mod_eq_of_lt hw
            rw [e] at hb hlt
            obtain ⟨v, hge⟩ := ih (ip + 2 ^ m) (by omega) b hb
            exact ⟨v, by omega⟩
          · have e : (ip + 2 ^ m) % 4294967296 = 0 := by omega
            have ehi : hi = 4294967295 := by omega
            rw [e, ehi] at hb
            exfalso
            cases fuel with
            | zero => simp [ip4Subnets] at hb
            | succ fuel =>
              have hn : alignLoop 0 (intlb4_1p ((4294967295 + 4294967296 - 0) % 4294967296)) =
                  none := by decide
              rw [ip4Subnets, hn] at hb
              simp at hb
      · simp only [List.mem_singleton] at hb
        subst hb
        exact ⟨hhead, le_refl _⟩

theorem alignLoop_some (ip : Nat) (h : ip < 4294967296) (m0 : Nat) (hm : m0 < 32) :
    ∃ m, alignLoop ip m0 = some m := by
  induction m0 with
  | zero =>
    refine ⟨0, ?_⟩
    rw [alignLoop, align_test ip 0 h]
    simp [Nat.mod_one]
  | succ m0 ih =>
    rw [alignLoop, align_test ip (m0 + 1) h]
    have h32 : ¬ m0 + 1 ≥ 32 := by omega
    simp only [h32, if_false]
    split
    · exact ih (by omega)
    · exact ⟨m0 + 1, rfl⟩

theorem ip4Subnets_first (lo hi fuel : Nat) (hle : lo ≤ hi) (hhi : hi < 4294967296)
    (hne : ¬ (lo = 0 ∧ hi = 4294967295)) :
    ∃ len rest, (ip4Subnets hi (fuel + 1) lo).1 = (lo, len) :: rest := by
  have hd : (hi + 4294967296 - lo) % 4294967296 = hi - lo := by omega
  obtain ⟨j1, j2⟩ := intlb4_1p_spec (hi - lo) (by omega)
  have hm0 : intlb4_1p (hi - lo) < 32 := by
    by_contra hge
    have : 2 ^ 32 ≤ 2 ^ intlb4_1p (hi - lo) := Nat.pow_le_pow_right (by decide) (by omega)
    norm_num at this
    omega
  obtain ⟨m, hm⟩ := alignLoop_some lo (by omega) _ hm0
  rw [ip4Subnets, hd, hm]
  simp only
  split
  · exact ⟨_, _, rfl⟩
  · exact ⟨_, _, rfl⟩

/-! ## The node that replaces a removed node -/

theorem removeIP4Tail_small (change : Int) (lo hi cc : Nat) (B : Int) (L R : IP4Node)
    (h : (B + change).natAbs ≤ 1) :
    ∃ r, removeIP4Tail change lo hi cc B L R = some (r, .node lo hi cc (B + change) L R) := by
  unfold removeIP4Tail
  by_cases hc : change = 0
  · subst hc
    exact ⟨0, by simp⟩
  · have hn : ¬ (B + change).natAbs > 1 := by omega
    exact ⟨cbool (B + change = 0), by simp [hc, hn]⟩

theorem removeIP4Two_pred (p q : IP4Node) (hp : avl p) (hpn : p ≠ .null) :
    ∃ r p' x, removeIP4Two (-1) p q = some (r, .node x.lo x.hi x.cc
        (-1 + ((height p : Int) - (height p' : Int))) p' q) ∧
      serializeIP4Tree p = serializeIP4Tree p' ++ [x] ∧ avl p' ∧
      ((height p : Int) - (height p' : Int) = 0 ∨ (height p : Int) - (height p' : Int) = 1) := by
  unfold removeIP4Two
  simp only [if_true]
  cases p with
  | null => exact absurd rfl hpn
  | node plo phi pcc pB pL pR =>
    cases pR with
    | null =>
      have hp' := hp
      simp only [avl, height] at hp'
      obtain ⟨hpL, -, -, -, -⟩ := hp'
      have hh : (height (.node plo phi pcc pB pL .null) : Int) - (height pL : Int) = 1 := by
        simp only [height]; omega
      obtain ⟨r, e⟩ := removeIP4Tail_small 1 plo phi pcc (-1) pL q (by decide)
      refine ⟨r, pL, ⟨plo, phi, pcc⟩, ?_, by simp [serializeIP4Tree], hpL, Or.inr hh⟩
      rw [hh]
      exact e
    | node rlo rhi rcc rB rL rR =>
      obtain ⟨r, p', x, e, hp', hh, hr⟩ :=
        pickPrevIP4Node_spec (.node plo phi pcc pB pL (.node rlo rhi rcc rB rL rR)) hp (by simp)
      have hs := pickPrevIP4Node_serialize _ _ _ _ e
      obtain ⟨r2, e2⟩ := removeIP4Tail_small r x.lo x.hi x.cc (-1) p' q (by omega)
      refine ⟨r2, p', x, ?_, hs, hp', by omega⟩
      simp only [e]
      have hc : (height (.node plo phi pcc pB pL (.node rlo rhi rcc rB rL rR)) : Int) -
          (height p' : Int) = r := by omega
      rw [hc]
      exact e2

theorem removeIP4Two_succ (b : Int) (p q : IP4Node) (hq : avl q) (hqn : q ≠ .null)
    (hb : b = 0 ∨ b = 1) :
    ∃ r q' x, removeIP4Two b p q = some (r, .node x.lo x.hi x.cc
        (b - ((height q : Int) - (height q' : Int))) p q') ∧
      serializeIP4Tree q = x :: serializeIP4Tree q' ∧ avl q' ∧
      ((height q : Int) - (height q' : Int) = 0 ∨ (height q : Int) - (height q' : Int) = 1) := by
  unfold removeIP4Two
  have hb1 : ¬ b = -1 := by omega
  simp only [hb1, if_false]
  cases q with
  | null => exact absurd rfl hqn
  | node qlo qhi qcc qB qL qR =>
    cases qL with
    | null =>
      have hq' := hq
      simp only [avl, height] at hq'
      obtain ⟨-, hqR, -, -, -⟩ := hq'
      have hh : (height (.node qlo qhi qcc qB .null qR) : Int) - (height qR : Int) = 1 := by
        simp only [height]; omega
      obtain ⟨r, e⟩ := removeIP4Tail_small (-1) qlo qhi qcc b p qR (by omega)
      refine ⟨r, qR, ⟨qlo, qhi, qcc⟩, ?_, by simp [serializeIP4Tree], hqR, Or.inr hh⟩
      rw [hh]
      exact e
    | node llo lhi lcc lB lL lR =>
      obtain ⟨r, q', x, e, hq', hh, hr⟩ :=
        pickNextIP4Node_spec (.node qlo qhi qcc qB (.node llo lhi lcc lB lL lR) qR) hq (by simp)
      have hs := pickNextIP4Node_serialize _ _ _ _ e
      obtain ⟨r2, e2⟩ := removeIP4Tail_small (-r) x.lo x.hi x.cc b p q' (by omega)
      refine ⟨r2, q', x, ?_, hs, hq', by omega⟩
      simp only [e]
      have hc : (height (.node qlo qhi qcc qB (.node llo lhi lcc lB lL lR) qR) : Int) -
          (height q' : Int) = r := by omega
      rw [hc]
      exact e2

theorem removeIP4Node_two_children (lo hi cc : Nat) (B : Int) (L R : IP4Node)
    (hL : L ≠ .null) (hR : R ≠ .null) :
    removeIP4Node lo (.node lo hi cc B L R) = removeIP4Two B L R := by
  rw [removeIP4Node]
  simp only [lt_irrefl, gt_iff_lt, if_false]
  unfold removeIP4Found
  cases L with
  | null => exact absurd rfl hL
  | node _ _ _ _ _ _ =>
    cases R with
    | null => exact absurd rfl hR
    | node _ _ _ _ _ _ => rfl

theorem filter_remove_key (l : List IP4Set) (n : IP4Set)
    (hs : l.Pairwise (fun a b => a.lo < b.lo)) (hn : n ∈ l) :
    ∃ l1 l2, l = l1 ++ n :: l2 ∧ l.filter (fun x => decide (x.lo ≠ n.lo)) = l1 ++ l2 := by
  obtain ⟨l1, l2, e⟩ := List.append_of_mem hn
  refine ⟨l1, l2, e, ?_⟩
  subst e
  rw [List.pairwise_append, List.pairwise_cons] at hs
  obtain ⟨-, ⟨h2, -⟩, h3⟩ := hs
  have f1 : l1.filter (fun x => decide (x.lo ≠ n.lo)) = l1 := by
    rw [List.filter_eq_self]
    intro a ha
    have := h3 a ha n (List.mem_cons_self _ _)
    simp; omega
  have f2 : l2.filter (fun x => decide (x.lo ≠ n.lo)) = l2 := by
    rw [List.filter_eq_self]
    intro a ha
    have := h2 a ha
    simp; omega
  have d3 : decide (n.lo ≠ n.lo) = false := decide_eq_false (by simp)
  simp only [List.filter_append, List.filter_cons, f1, f2, d3, Bool.false_eq_true, if_false]

/-! ## Termination of the subnet decomposition -/

theorem alignLoop_of_dvd (ip m : Nat) (h : ip < 4294967296) (hm : m < 32) (hd : 2 ^ m ∣ ip) :
    alignLoop ip m = some m := by
  have ht : ip % 2 ^ m = 0 := Nat.mod_eq_zero_of_dvd hd
  cases m with
  | zero => rw [alignLoop, align_test ip 0 h, ht]; simp
  | succ m =>
    rw [alignLoop, align_test ip (m + 1) h, ht]
    have h32 : ¬ m + 1 ≥ 32 := by omega
    simp [h32]

theorem intlb4_1p_lt (x j : Nat) (hx : x < 4294967296) (h : x + 1 < 2 ^ j) :
    intlb4_1p x < j := by
  obtain ⟨j1, -⟩ := intlb4_1p_spec x hx
  by_contra hge
  have : 2 ^ j ≤ 2 ^ intlb4_1p x := Nat.pow_le_pow_right (by decide) (by omega)
  omega

/-- Once `ip` is a multiple of `2^j` and fewer than `2^j` addresses remain, the
loop ends after at most `j` blocks. -/
theorem ip4Subnets_tail (hi : Nat) (hhi : hi < 4294967295) (j : Nat) :
    ∀ ip fuel, ip ≤ hi → 2 ^ j ∣ ip → hi - ip + 1 < 2 ^ j → j ≤ fuel →
      (ip4Subnets hi fuel ip).2 = .done ∧ (ip4Subnets hi fuel ip).1.length ≤ j := by
  induction j using Nat.strong_induction_on with
  | _ j ih =>
    intro ip fuel hle hdvd hrem hfuel
    have hj : 1 ≤ j := by
      by_contra h0
      have : j = 0 := by omega
      subst this
      simp at hrem
    cases fuel with
    | zero => omega
    | succ f =>
      have hd : (hi + 4294967296 - ip) % 4294967296 = hi - ip := by omega
      obtain ⟨j1, j2⟩ := intlb4_1p_spec (hi - ip) (by omega)
      have hm0 : intlb4_1p (hi - ip) < j := intlb4_1p_lt (hi - ip) j (by omega) hrem
      have hm32 : intlb4_1p (hi - ip) < 32 :=
        intlb4_1p_lt (hi - ip) 32 (by omega) (by norm_num; omega)
      have hdv : 2 ^ intlb4_1p (hi - ip) ∣ ip :=
        Nat.dvd_trans (Nat.pow_dvd_pow 2 (by omega)) hdvd
      have ha := alignLoop_of_dvd ip _ (by omega) hm32 hdv
      have e2 : 2 ^ (intlb4_1p (hi - ip) + 1) = 2 * 2 ^ intlb4_1p (hi - ip) := by
        rw [pow_succ]; ring
      rw [e2] at j2
      rw [ip4Subnets, hd, ha]
      simp only
      have hmod : (ip + 2 ^ intlb4_1p (hi - ip)) % 4294967296 = ip + 2 ^ intlb4_1p (hi - ip) :=
        Nat.mod_eq_of_lt (by omega)
      rw [hmod]
      split
      · rename_i hlt
        obtain ⟨r1, r2⟩ := ih (intlb4_1p (hi - ip)) hm0 (ip + 2 ^ intlb4_1p (hi - ip)) f
          (by omega) (Nat.dvd_add hdv (dvd_refl _)) (by omega) (by omega)
        exact ⟨r1, by simp only [List.length_cons]; omega⟩
      · exact ⟨rfl, by simp only [List.length_singleton]; omega⟩

theorem dvd_succ_pow (ip m : Nat) (hd : 2 ^ m ∣ ip) (hn : ¬ 2 ^ (m + 1) ∣ ip) :
    2 ^ (m + 1) ∣ ip + 2 ^ m := by
  obtain ⟨q, hq⟩ := hd
  have hodd : q % 2 = 1 := by
    by_contra he
    have he' : q % 2 = 0 := by omega
    apply hn
    obtain ⟨q', hq'⟩ := Nat.dvd_of_mod_eq_zero he'
    exact ⟨q', by rw [hq, hq', pow_succ]; ring⟩
  refine ⟨q / 2 + 1, ?_⟩
  have hq2 : q = 2 * (q / 2) + 1 := by omega
  rw [hq, pow_succ]
  conv_lhs => rw [hq2]
  ring

/-- From an `ip` that is a multiple of `2^i`, with `hi < 2^32 - 1`, the loop ends
after at most `64 - i` blocks. -/
theorem ip4Subnets_bound (hi : Nat) (hhi : hi < 4294967295) (d : Nat) :
    ∀ i ip fuel, i + d = 32 → ip ≤ hi → 2 ^ i ∣ ip → 64 - i ≤ fuel →
      (ip4Subnets hi fuel ip).2 = .done ∧ (ip4Subnets hi fuel ip).1.length ≤ 64 - i := by
  induction d using Nat.strong_induction_on with
  | _ d ih =>
    intro i ip fuel hid hle hdvd hfuel
    cases fuel with
    | zero => omega
    | succ f =>
      have hd : (hi + 4294967296 - ip) % 4294967296 = hi - ip := by omega
      obtain ⟨j1, j2⟩ := intlb4_1p_spec (hi - ip) (by omega)
      have hm32 : intlb4_1p (hi - ip) < 32 :=
        intlb4_1p_lt (hi - ip) 32 (by omega) (by norm_num; omega)
      obtain ⟨m, hm⟩ := alignLoop_some ip (by omega) _ hm32
      obtain ⟨i1, i2, i3, i4⟩ := alignLoop_spec ip (by omega) _ m hm
      have hpow : 2 ^ m ≤ 2 ^ intlb4_1p (hi - ip) := Nat.pow_le_pow_right (by decide) i1
      have e2 : 2 ^ (intlb4_1p (hi - ip) + 1) = 2 * 2 ^ intlb4_1p (hi - ip) := by
        rw [pow_succ]; ring
      rw [e2] at j2
      rw [ip4Subnets, hd, hm]
      simp only
      have hmod : (ip + 2 ^ m) % 4294967296 = ip + 2 ^ m := Nat.mod_eq_of_lt (by omega)
      rw [hmod]
      split
      · rename_i hlt
        by_cases hcase : m = intlb4_1p (hi - ip)
        · obtain ⟨r1, r2⟩ := ip4Subnets_tail hi hhi m (ip + 2 ^ m) f (by omega)
            (Nat.dvd_add i3 (dvd_refl _)) (by rw [hcase]; omega) (by omega)
          exact ⟨r1, by simp only [List.length_cons]; omega⟩
        · have hnd : ¬ 2 ^ (m + 1) ∣ ip := i4 (m + 1) (by omega) (by omega)
          have him : i ≤ m := by
            by_contra hgt
            exact hnd (Nat.dvd_trans (Nat.pow_dvd_pow 2 (by omega)) hdvd)
          obtain ⟨r1, r2⟩ := ih (32 - (m + 1)) (by omega) (m + 1) (ip + 2 ^ m) f (by omega)
            (by omega) (dvd_succ_pow ip m i3 hnd) (by omega)
          exact ⟨r1, by simp only [List.length_cons]; omega⟩
      · exact ⟨rfl, by simp only [List.length_singleton]; omega⟩

theorem ip4Subnets_terminates (lo hi fuel : Nat) (hle : lo ≤ hi) (hhi : hi < 4294967295)
    (hfuel : 64 ≤ fuel) :
    (ip4Subnets hi fuel lo).2 = .done ∧ (ip4Subnets hi fuel lo).1.length ≤ 64 :=
  ip4Subnets_bound hi hhi 32 0 lo fuel (by omega) hle (by simp) (by omega)

/-- For `hi = 2^32 - 1` no run of the loop ends by its loop condition. -/
theorem ip4Subnets_max_not_done (fuel : Nat) :
    ∀ ip, ip < 4294967296 → (ip4Subnets 4294967295 fuel ip).2 ≠ .done := by
  induction fuel with
  | zero => intro ip _; simp [ip4Subnets]
  | succ f ih =>
    intro ip hip
    rw [ip4Subnets]
    split
    · simp
    · rename_i m hm
      obtain ⟨i1, i2, i3, i4⟩ := block_of_alignLoop 4294967295 ip m (by omega) (by omega) hm
      have hpos : 0 < 2 ^ m := Nat.pow_pos (by decide)
      split
      · exact ih _ (Nat.mod_lt _ (by decide))
      · rename_i hge
        exfalso
        have hsum : ip + 2 ^ m = 4294967295 := by omega
        cases m with
        | zero =>
          have h2 : 2 ^ 1 ∣ ip := by
            simp only [pow_zero] at hsum
            exact ⟨2147483647, by omega⟩
          have := i4 1 h2 (by simp only [pow_one]; omega)
          omega
        | succ m =>
          have h2 : 2 ∣ 2 ^ (m + 1) := ⟨2 ^ m, by rw [pow_succ]; ring⟩
          have h3 : 2 ∣ ip := Nat.dvd_trans h2 i2
          have h4 : 2 ∣ ip + 2 ^ (m + 1) := Nat.dvd_add h3 h2
          rw [hsum] at h4
          omega

/-! ## Bisection search -/

theorem bisectionIP4Loop_sound (p : Nat) (a : List IP4Set) (fuel : Nat) :
    ∀ lo hi, bisectionIP4Loop p a fuel lo hi = -1 ∨
      ∃ (k : Nat) (r : IP4Set), bisectionIP4Loop p a fuel lo hi = (k : Int) ∧ a[k]? = some r ∧
        r.lo ≤ p ∧ p ≤ r.hi := by
  induction fuel with
  | zero => intro lo hi; left; rfl
  | succ f ih =>
    intro lo hi
    rw [bisectionIP4Loop]
    split
    · split
      · left; rfl
      · rename_i r hr
        split
        · exact ih _ _
        · split
          · exact ih _ _
          · right
            exact ⟨(lo + hi) / 2, r, rfl, hr, by omega, by omega⟩
    · left; rfl

theorem bisectionIP4Loop_found (p : Nat) (a : List IP4Set)
    (hsep : ∀ (i j : Nat) (x y : IP4Set), a[i]? = some x → a[j]? = some y → i < j → x.hi < y.lo)
    (hrng : ∀ (i : Nat) (x : IP4Set), a[i]? = some x → x.lo ≤ x.hi)
    (i : Nat) (r : IP4Set) (hi' : a[i]? = some r) (h1 : r.lo ≤ p) (h2 : p ≤ r.hi) (fuel : Nat) :
    ∀ lo hi, hi ≤ a.length → hi - lo ≤ fuel → lo ≤ i → i < hi →
      bisectionIP4Loop p a fuel lo hi = (i : Int) := by
  induction fuel with
  | zero => intro lo hi _ hf hl hh; omega
  | succ f ih =>
    intro lo hi hlen hf hl hh
    rw [bisectionIP4Loop]
    have hlt : lo < hi := by omega
    simp only [hlt, if_true]
    have hm : (lo + hi) / 2 < a.length := by omega
    rw [List.getElem?_eq_getElem hm]
    simp only
    have hmid : a[(lo + hi) / 2]? = some a[(lo + hi) / 2] := List.getElem?_eq_getElem hm
    have hrm := hrng _ _ hmid
    split
    · rename_i hlo
      apply ih _ _ (by omega) (by omega) hl
      by_contra hge
      by_cases he : i = (lo + hi) / 2
      · subst he
        rw [hmid] at hi'
        simp only [Option.some.injEq] at hi'
        subst hi'
        omega
      · have := hsep _ _ _ _ hmid hi' (by omega)
        omega
    · rename_i hlo
      split
      · rename_i hhi
        apply ih _ _ hlen (by omega) _ hh
        by_contra hge
        by_cases he : i = (lo + hi) / 2
        · subst he
          rw [hmid] at hi'
          simp only [Option.some.injEq] at hi'
          subst hi'
          omega
        · have := hsep _ _ _ _ hi' hmid (by omega)
          omega
      · rename_i hhi
        by_cases he : i = (lo + hi) / 2
        · rw [he]
        · exfalso
          rcases Nat.lt_or_gt_of_ne he with hlt' | hgt'
          · have := hsep _ _ _ _ hi' hmid hlt'
            omega
          · have := hsep _ _ _ _ hmid hi' hgt'
            omega

theorem serialize_separated (t : IP4Node) (ho : ordered t) (hd : disjoint t) (hr : ranges t) :
    ∀ (i j : Nat) (x y : IP4Set), (serializeIP4Tree t)[i]? = some x → (serializeIP4Tree t)[j]? = some y →
      i < j → x.hi < y.lo := by
  have hp : (serializeIP4Tree t).Pairwise (fun x y => x.hi < y.lo) := by
    refine List.Pairwise.imp_of_mem ?_ ((ordered_iff_pairwise t).1 ho)
    intro x y hx hy hlt
    have hne : x ≠ y := by
      intro h
      subst h
      omega
    have := hd x hx y hy hne
    have := hr y hy
    omega
  rw [List.pairwise_iff_getElem] at hp
  intro i j x y hx hy hij
  obtain ⟨hi, ex⟩ := List.getElem?_eq_some.1 hx
  obtain ⟨hj, ey⟩ := List.getElem?_eq_some.1 hy
  have := hp i j hi hj hij
  rw [ex, ey] at this
  exact this

/-! ## Table values and removal from the bucket table -/

theorem removeCC_single (cce : Nat → Nat) (N : Nat) (table : List CCNode) (a b ui : Nat)
    (B : Int) (h : table[cci cce N a]? = some (.node b ui B .null .null)) :
    removeCC cce N table a = some (table.set (cci cce N a) .null) := by
  unfold removeCC
  rw [h]
  simp [removeCCRoot]

theorem ccv_uint32 (cce : Nat → Nat) (cc : Nat) (toff : Int) :
    ccv .uint32 cce cc toff =
      some ((toff + (cce (cc % 65536) : Int) * 10) % 4294967296).toNat := by
  unfold ccv ccvSum
  simp only
  have h1 : 0 ≤ (toff + (cce (cc % 65536) : Int) * 10) % 4294967296 :=
    Int.emod_nonneg _ (by decide)
  have h2 : (toff + (cce (cc % 65536) : Int) * 10) % 4294967296 < 4294967296 :=
    Int.emod_lt_of_pos _ (by decide)
  rw [if_pos ⟨h1, by omega⟩]

theorem ccv_exact (ty : CceType) (cce : Nat → Nat) (cc : Nat) (toff : Int) (h0 : 0 ≤ toff)
    (h1 : toff + (cce (cc % 65536) : Int) * 10 ≤ 2147483647) :
    ccv ty cce cc toff = some (toff + (cce (cc % 65536) : Int) * 10).toNat := by
  unfold ccv ccvSum
  cases ty with
  | sint32 =>
    simp only
    rw [if_pos ⟨by omega, by omega, by omega⟩]
    simp only
    rw [if_pos ⟨by omega, by omega⟩]
  | uint32 =>
    simp only
    have hm : (toff + (cce (cc % 65536) : Int) * 10) % 4294967296 =
        toff + (cce (cc % 65536) : Int) * 10 := by omega
    rw [hm, if_pos ⟨by omega, by omega⟩]
  | sint64 =>
    simp only
    rw [if_pos ⟨by omega, by omega⟩]
    simp only
    rw [if_pos ⟨by omega, by omega⟩]

theorem ccv_sint64 (cce : Nat → Nat) (cc : Nat) (toff : Int)
    (ht : -2147483648 ≤ toff ∧ toff ≤ 2147483647) (hi : cce (cc % 65536) < 4294967296) :
    ccv .sint64 cce cc toff =
      some (if 0 ≤ toff + (cce (cc % 65536) : Int) * 10 ∧
          toff + (cce (cc % 65536) : Int) * 10 ≤ 4294967295 then
        (toff + (cce (cc % 65536) : Int) * 10).toNat else 0) := by
  unfold ccv ccvSum
  simp only
  rw [if_pos ⟨by omega, by omega⟩]

theorem storeCC_length (cce : Nat → Nat) (N : Nat) (alloc : Bool) (table table' : List CCNode)
    (ccui : List Nat) (h : storeCC cce N alloc table ccui = some table') :
    table'.length = table.length := by
  unfold storeCC at h
  split at h
  · split at h
    · split at h
      · simp at h
      · split at h
        · simp at h
        · simp only [Option.some.injEq] at h
          rw [← h, List.length_set]
    · simp only [Option.some.injEq] at h
      rw [h]
  · simp only [Option.some.injEq] at h
    rw [h]

theorem removeCC_length (cce : Nat → Nat) (N : Nat) (table table' : List CCNode) (cc : Nat)
    (h : removeCC cce N table cc = some table') : table'.length = table.length := by
  unfold removeCC at h
  split at h
  · simp at h
  · split at h
    · simp at h
    · simp only [Option.some.injEq] at h
      rw [← h, List.length_set]

/-! ## The claims -/

/-- C1: on a tree that is a valid AVL tree (ordered by `lo`, every `B` equal to
`height(R) - height(L)` and in {-1, 0, +1}), `addIP4Node` with a successful
allocation returns, and the tree it leaves is again ordered by `lo` with every
`B` equal to the actual height difference and in {-1, 0, +1}. -/
theorem addIP4Node_keeps_avl (lo hi cc : Nat) (t : IP4Node) (hv : avl t) (ho : ordered t) :
    ∃ r t', addIP4Node true lo hi cc t = some (r, t') ∧ avl t' ∧ ordered t' := by
  obtain ⟨r, t', e, h1, -⟩ := addIP4Node_spec true lo hi cc t hv
  exact ⟨r, t', e, h1, addIP4Node_ordered true lo hi cc t t' r ho e⟩

theorem addIP4Node_keeps_avl_witness :
    (avl treeA ∧ ordered treeA) ∧
      ∃ r t', addIP4Node true 1 2 3 treeA = some (r, t') ∧ avl t' ∧ ordered t' :=
  ⟨by decide, addIP4Node_keeps_avl 1 2 3 treeA (by decide) (by decide)⟩

/-- C2: on a valid AVL tree `removeIP4Node` returns, and the tree it leaves is
again ordered by `lo` with every `B` equal to the actual height difference and
in {-1, 0, +1}; this covers the two-children case through `pickPrevIP4Node` and
`pickNextIP4Node`. -/
theorem removeIP4Node_keeps_avl (ip : Nat) (t : IP4Node) (hv : avl t) (ho : ordered t) :
    ∃ r t', removeIP4Node ip t = some (r, t') ∧ avl t' ∧ ordered t' := by
  obtain ⟨r, t', e, h1, -⟩ := removeIP4Node_spec ip t hv
  exact ⟨r, t', e, h1, removeIP4Node_ordered ip t t' r ho e⟩

theorem removeIP4Node_keeps_avl_witness :
    (avl treeC ∧ ordered treeC) ∧
      ∃ r t', removeIP4Node 50 treeC = some (r, t') ∧ avl t' ∧ ordered t' :=
  ⟨by decide, removeIP4Node_keeps_avl 50 treeC (by decide) (by decide)⟩

/-- C3: on a valid tree, for a `lo` that is no node's low bound, `addIP4Node`
with a successful allocation leaves the in-order record sequence of before with
`(lo, hi, cc)` inserted between the records below `lo` and the records above
`lo`; nothing else is added, dropped or altered. -/
theorem addIP4Node_inserts_record (lo hi cc : Nat) (t : IP4Node) (hv : avl t) (ho : ordered t)
    (hk : ∀ x ∈ serializeIP4Tree t, x.lo ≠ lo) :
    ∃ r t' l1 l2, addIP4Node true lo hi cc t = some (r, t') ∧
      serializeIP4Tree t = l1 ++ l2 ∧
      serializeIP4Tree t' = l1 ++ ⟨lo, hi, cc⟩ :: l2 ∧
      (∀ a ∈ l1, a.lo < lo) ∧ (∀ b ∈ l2, lo < b.lo) := by
  obtain ⟨r, t', e, -⟩ := addIP4Node_spec true lo hi cc t hv
  refine ⟨r, t', _, _, e,
    sorted_split lo _ ((ordered_iff_pairwise t).1 ho) hk,
    addIP4Node_serialize lo hi cc t t' r ho hk e, ?_, ?_⟩
  · intro a ha
    simpa using (List.mem_filter.1 ha).2
  · intro b hb
    simpa using (List.mem_filter.1 hb).2

theorem addIP4Node_inserts_record_witness :
    ∃ r t' l1 l2, addIP4Node true 27 27 9 treeC = some (r, t') ∧
      serializeIP4Tree treeC = l1 ++ l2 ∧
      serializeIP4Tree t' = l1 ++ ⟨27, 27, 9⟩ :: l2 ∧
      (∀ a ∈ l1, a.lo < 27) ∧ (∀ b ∈ l2, 27 < b.lo) :=
  addIP4Node_inserts_record 27 27 9 treeC (by decide) (by decide) (by decide)

/-- C4, as stated, fails: 15 lies inside the range [10, 20] of the root of
`treeB`, yet `removeIP4Node 15` returns 0 and leaves the tree as it was, the
record (10, 20, 1) included. -/
theorem removeIP4Node_inner_point_counterexample :
    (avl treeB ∧ ordered treeB ∧ disjoint treeB ∧ ranges treeB) ∧
      (⟨10, 20, 1⟩ ∈ serializeIP4Tree treeB ∧ 10 ≤ 15 ∧ 15 ≤ 20) ∧
      removeIP4Node 15 treeB = some (0, treeB) := by
  decide

/-- C4, amended: on a valid tree with pairwise disjoint ranges, for a point
that equals the low bound `lo` of a node, `removeIP4Node` removes that node:
afterwards no node contains the point and every other record is still
present (and no record is new). -/
theorem removeIP4Node_removes_low_bound (t : IP4Node) (n : IP4Set)
    (hv : avl t) (ho : ordered t) (hd : disjoint t) (hr : ranges t)
    (hn : n ∈ serializeIP4Tree t) :
    ∃ r t', removeIP4Node n.lo t = some (r, t') ∧
      (∀ m ∈ serializeIP4Tree t', ¬ (m.lo ≤ n.lo ∧ n.lo ≤ m.hi)) ∧
      (∀ m ∈ serializeIP4Tree t, m ≠ n → m ∈ serializeIP4Tree t') ∧
      (∀ m ∈ serializeIP4Tree t', m ∈ serializeIP4Tree t) := by
  obtain ⟨r, t', e, -⟩ := removeIP4Node_spec n.lo t hv
  have hs := removeIP4Node_serialize n.lo t t' r ho e
  refine ⟨r, t', e, ?_, ?_, ?_⟩
  · intro m hm hc
    rw [hs] at hm
    obtain ⟨hmt, hml⟩ := List.mem_filter.1 hm
    have hml' : m.lo ≠ n.lo := by simpa using hml
    have hmn : m ≠ n := fun h => hml' (by rw [h])
    have := hd m hmt n hn hmn
    have := hr n hn
    omega
  · intro m hm hmn
    rw [hs]
    refine List.mem_filter.2 ⟨hm, ?_⟩
    have : m.lo ≠ n.lo := fun h => hmn (keys_unique t ho m n hm hn h)
    simpa using this
  · intro m hm
    rw [hs] at hm
    exact (List.mem_filter.1 hm).1

theorem removeIP4Node_removes_low_bound_witness :
    ∃ r t', removeIP4Node 50 treeC = some (r, t') ∧
      (∀ m ∈ serializeIP4Tree t', ¬ (m.lo ≤ 50 ∧ 50 ≤ m.hi)) ∧
      (∀ m ∈ serializeIP4Tree treeC, m ≠ ⟨50, 59, 1⟩ → m ∈ serializeIP4Tree t') ∧
      (∀ m ∈ serializeIP4Tree t', m ∈ serializeIP4Tree treeC) :=
  removeIP4Node_removes_low_bound treeC ⟨50, 59, 1⟩ (by decide) (by decide) (by decide)
    (by decide) (by decide)

/-- C5: for an address that is the low bound of no node (the comparison by
which `removeIP4Node` matches; on a tree with `lo ≤ hi` in every node this
holds for every address that no range contains), `removeIP4Node` returns 0 and
leaves the very same tree: same shape, same `B` fields, same serialization. -/
theorem removeIP4Node_no_match (ip : Nat) (t : IP4Node)
    (h : ∀ x ∈ serializeIP4Tree t, x.lo ≠ ip) :
    removeIP4Node ip t = some (0, t) :=
  removeIP4Node_absent ip t h

theorem removeIP4Node_no_match_witness :
    removeIP4Node 45 treeC = some (0, treeC) :=
  removeIP4Node_no_match 45 treeC (by decide)

/-- C6: on a tree ordered by `lo`, for a `lo` that is the low bound of an
existing node, `addIP4Node` returns 0 and leaves the very same tree (whether or
not an allocation would succeed): same shape, same `B` fields, and the existing
node keeps its `hi` and `cc`. -/
theorem addIP4Node_duplicate_low_bound (alloc : Bool) (lo hi cc : Nat) (t : IP4Node)
    (ho : ordered t) (hk : ∃ x ∈ serializeIP4Tree t, x.lo = lo) :
    addIP4Node alloc lo hi cc t = some (0, t) :=
  addIP4Node_existing alloc lo hi cc t ho hk

theorem addIP4Node_duplicate_low_bound_witness :
    addIP4Node true 30 99 9 treeC = some (0, treeC) :=
  addIP4Node_duplicate_low_bound true 30 99 9 treeC (by decide) (by decide)

/-- C7, as stated, fails: 15 is no low bound of `treeA` and the allocation
succeeds, yet the top-level `addIP4Node` returns 0 (the new leaf fills the
shorter side, so the height of the tree does not grow). -/
theorem addIP4Node_result_counterexample :
    (avl treeA ∧ ordered treeA ∧ ∀ x ∈ serializeIP4Tree treeA, x.lo ≠ 15) ∧
      addIP4Node true 15 16 1 treeA =
        some (0, .node 10 20 1 0 (.node 5 6 1 0 .null .null) (.node 15 16 1 0 .null .null)) := by
  decide

/-- C7, amended: on a valid tree, for a `lo` that is no node's low bound and a
successful allocation, `addIP4Node` inserts the record and returns the growth
of the tree's height: 1 when the height grew by one, 0 when it is unchanged. -/
theorem addIP4Node_returns_height_growth (lo hi cc : Nat) (t : IP4Node)
    (hv : avl t) (ho : ordered t) (hk : ∀ x ∈ serializeIP4Tree t, x.lo ≠ lo) :
    ∃ r t', addIP4Node true lo hi cc t = some (r, t') ∧
      ⟨lo, hi, cc⟩ ∈ serializeIP4Tree t' ∧ (r = 0 ∨ r = 1) ∧
      (r = 1 ↔ height t' = height t + 1) ∧ (r = 0 ↔ height t' = height t) := by
  obtain ⟨r, t', e, -, hh, hr, -⟩ := addIP4Node_spec true lo hi cc t hv
  refine ⟨r, t', e, ?_, hr, by omega, by omega⟩
  rw [addIP4Node_serialize lo hi cc t t' r ho hk e]
  simp

theorem addIP4Node_returns_height_growth_witness :
    ∃ r t', addIP4Node true 15 16 1 treeA = some (r, t') ∧
      ⟨15, 16, 1⟩ ∈ serializeIP4Tree t' ∧ (r = 0 ∨ r = 1) ∧
      (r = 1 ↔ height t' = height treeA + 1) ∧ (r = 0 ↔ height t' = height treeA) :=
  addIP4Node_returns_height_growth 15 16 1 treeA (by decide) (by decide) (by decide)

/-- C8, as stated, fails: `removeIP4Node 5` removes the left leaf of `treeB`
and returns 0 (the height of the tree is unchanged). -/
theorem removeIP4Node_result_counterexample :
    (avl treeB ∧ ordered treeB) ∧
      removeIP4Node 5 treeB = some (0, .node 10 20 1 1 .null (.node 30 40 2 0 .null .null)) ∧
      ⟨5, 6, 1⟩ ∈ serializeIP4Tree treeB ∧
      ⟨5, 6, 1⟩ ∉ serializeIP4Tree (.node 10 20 1 1 .null (.node 30 40 2 0 .null .null)) := by
  decide

/-- C8, amended: on a valid tree `removeIP4Node` returns 1 if and only if the
height of the tree decreased by one, and 0 if and only if the height is
unchanged; a nonzero result implies that a node (the one with `lo = ip`) was
removed, and when no node has `lo = ip` the result is 0. -/
theorem removeIP4Node_returns_height_loss (ip : Nat) (t : IP4Node)
    (hv : avl t) (ho : ordered t) :
    ∃ r t', removeIP4Node ip t = some (r, t') ∧ (r = 0 ∨ r = 1) ∧
      (r = 1 ↔ height t' + 1 = height t) ∧ (r = 0 ↔ height t' = height t) ∧
      (r ≠ 0 → ∃ x ∈ serializeIP4Tree t, x.lo = ip ∧ x ∉ serializeIP4Tree t') := by
  obtain ⟨r, t', e, -, hh, hr⟩ := removeIP4Node_spec ip t hv
  refine ⟨r, t', e, hr, by omega, by omega, ?_⟩
  intro hr0
  by_cases hk : ∃ x ∈ serializeIP4Tree t, x.lo = ip
  · obtain ⟨x, hx, hxl⟩ := hk
    refine ⟨x, hx, hxl, ?_⟩
    rw [removeIP4Node_serialize ip t t' r ho e]
    intro hm
    have := (List.mem_filter.1 hm).2
    simp [hxl] at this
  · have hk' : ∀ x ∈ serializeIP4Tree t, x.lo ≠ ip := fun x hx hxl => hk ⟨x, hx, hxl⟩
    rw [removeIP4Node_absent ip t hk'] at e
    simp at e
    exact absurd e.1.symm hr0

theorem removeIP4Node_returns_height_loss_witness :
    ∃ r t', removeIP4Node 5 treeB = some (r, t') ∧ (r = 0 ∨ r = 1) ∧
      (r = 1 ↔ height t' + 1 = height treeB) ∧ (r = 0 ↔ height t' = height treeB) ∧
      (r ≠ 0 → ∃ x ∈ serializeIP4Tree treeB, x.lo = 5 ∧ x ∉ serializeIP4Tree t') :=
  removeIP4Node_returns_height_loss 5 treeB (by decide) (by decide)

/-- C9: when the allocation of the new node fails, `addIP4Node` and `addCCNode`
return 0 and leave the very same tree: no node added, no link and no `B` field
changed. -/
theorem add_alloc_failure_unchanged :
    (∀ (lo hi cc : Nat) (t : IP4Node), addIP4Node false lo hi cc t = some (0, t)) ∧
      (∀ (cc ui : Nat) (t : CCNode), addCCNode false cc ui t = some (0, t)) :=
  ⟨addIP4Node_alloc_fails, addCCNode_alloc_fails⟩

/-- C10: on a tree ordered by `lo` with pairwise disjoint ranges and `lo ≤ hi`
in each node, `findIP4Node` returns the node whose range contains `ip` if there
is one (at most one node contains `ip`), and `NULL` if no node contains `ip`. -/
theorem findIP4Node_correct (ip : Nat) (t : IP4Node)
    (ho : ordered t) (hd : disjoint t) (hr : ranges t) :
    (∀ n ∈ serializeIP4Tree t, n.lo ≤ ip → ip ≤ n.hi →
      ∃ B L R, findIP4Node ip t = .node n.lo n.hi n.cc B L R) ∧
    (∀ n ∈ serializeIP4Tree t, ∀ m ∈ serializeIP4Tree t,
      n.lo ≤ ip → ip ≤ n.hi → m.lo ≤ ip → ip ≤ m.hi → n = m) ∧
    ((∀ n ∈ serializeIP4Tree t, ¬ (n.lo ≤ ip ∧ ip ≤ n.hi)) → findIP4Node ip t = .null) := by
  refine ⟨?_, ?_, ?_⟩
  · induction t with
    | null => intro n hn; simp [serializeIP4Tree] at hn
    | node lo hi cc B L R ihL ihR =>
      simp only [ordered] at ho
      obtain ⟨hoL, hoR, hlL, hlR⟩ := ho
      have hdL : disjoint L := fun a ha b hb hab =>
        hd a (by simp [serializeIP4Tree, ha]) b (by simp [serializeIP4Tree, hb]) hab
      have hdR : disjoint R := fun a ha b hb hab =>
        hd a (by simp [serializeIP4Tree, ha]) b (by simp [serializeIP4Tree, hb]) hab
      have hrL : ranges L := fun a ha => hr a (by simp [serializeIP4Tree, ha])
      have hrR : ranges R := fun a ha => hr a (by simp [serializeIP4Tree, ha])
      have hro : lo ≤ hi := hr ⟨lo, hi, cc⟩ (by simp [serializeIP4Tree])
      have hdo : ∀ a ∈ serializeIP4Tree (.node lo hi cc B L R), a ≠ ⟨lo, hi, cc⟩ →
          a.hi < lo ∨ hi < a.lo := fun a ha hne =>
        hd a ha ⟨lo, hi, cc⟩ (by simp [serializeIP4Tree]) hne
      intro n hn h1 h2
      have hn' := hn
      simp only [serializeIP4Tree, List.mem_append, List.mem_cons] at hn'
      rw [findIP4Node]
      split
      · rename_i hin
        by_cases hne : n = ⟨lo, hi, cc⟩
        · subst hne; exact ⟨B, L, R, rfl⟩
        · have := hdo n hn hne
          omega
      · rename_i hin
        have hne : n ≠ ⟨lo, hi, cc⟩ := by
          intro h; subst h; exact hin ⟨h1, h2⟩
        have hdn := hdo n hn hne
        split
        · rename_i hlt
          rcases hn' with h | h | h
          · exact ihL hoL hdL hrL n h h1 h2
          · exact absurd h hne
          · have := hlR n h; omega
        · rename_i hlt
          rcases hn' with h | h | h
          · have := hlL n h; omega
          · exact absurd h hne
          · exact ihR hoR hdR hrR n h h1 h2
  · intro n hn m hm h1 h2 h3 h4
    by_contra hne
    have := hd n hn m hm hne
    omega
  · induction t with
    | null => intro _; rfl
    | node lo hi cc B L R ihL ihR =>
      simp only [ordered] at ho
      obtain ⟨hoL, hoR, -, -⟩ := ho
      have hdL : disjoint L := fun a ha b hb hab =>
        hd a (by simp [serializeIP4Tree, ha]) b (by simp [serializeIP4Tree, hb]) hab
      have hdR : disjoint R := fun a ha b hb hab =>
        hd a (by simp [serializeIP4Tree, ha]) b (by simp [serializeIP4Tree, hb]) hab
      have hrL : ranges L := fun a ha => hr a (by simp [serializeIP4Tree, ha])
      have hrR : ranges R := fun a ha => hr a (by simp [serializeIP4Tree, ha])
      intro hno
      have h0 := hno ⟨lo, hi, cc⟩ (by simp [serializeIP4Tree])
      simp only at h0
      rw [findIP4Node, if_neg h0]
      split
      · exact ihL hoL hdL hrL (fun n hn => hno n (by simp [serializeIP4Tree, hn]))
      · exact ihR hoR hdR hrR (fun n hn => hno n (by simp [serializeIP4Tree, hn]))

theorem findIP4Node_correct_witness :
    (∀ n ∈ serializeIP4Tree treeC, n.lo ≤ 27 → 27 ≤ n.hi →
      ∃ B L R, findIP4Node 27 treeC = .node n.lo n.hi n.cc B L R) ∧
    (∀ n ∈ serializeIP4Tree treeC, ∀ m ∈ serializeIP4Tree treeC,
      n.lo ≤ 27 → 27 ≤ n.hi → m.lo ≤ 27 → 27 ≤ m.hi → n = m) ∧
    ((∀ n ∈ serializeIP4Tree treeC, ¬ (n.lo ≤ 27 ∧ 27 ≤ n.hi)) → findIP4Node 27 treeC = .null) :=
  findIP4Node_correct 27 treeC (by decide) (by decide) (by decide)

/-- C11: on a tree ordered by `lo` with pairwise disjoint well-formed 32-bit
ranges, for a query `lo ≤ hi < 2^32`, `findNet4Node` returns a node if and only
if some node overlaps `[lo, hi]` or carries `cc` and touches `[lo, hi]` with
zero gap in exact arithmetic, and the node returned is a node of the tree that
satisfies that condition; the 32-bit wrap of `lo-1` at `lo = 0` and of `hi+1`
at `hi = 2^32-1` does not change the outcome. -/
theorem findNet4Node_correct (lo hi cc : Nat) (t : IP4Node) (ho : ordered t) (hd : disjoint t)
    (hr : ranges t) (hb : bounded32 t) (hq : lo ≤ hi) (hqb : hi < 4294967296) :
    (findNet4Node lo hi cc t ≠ .null ↔ ∃ n ∈ serializeIP4Tree t, netMatch lo hi cc n) ∧
    (∀ nlo nhi ncc B L R, findNet4Node lo hi cc t = .node nlo nhi ncc B L R →
      ⟨nlo, nhi, ncc⟩ ∈ serializeIP4Tree t ∧ netMatch lo hi cc ⟨nlo, nhi, ncc⟩) := by
  refine ⟨⟨?_, findNet4Node_complete lo hi cc t ho hd hr hb hq hqb⟩,
    fun nlo nhi ncc B L R h => findNet4Node_sound lo hi cc t hr hb hq hqb nlo nhi ncc B L R h⟩
  intro hne
  cases hf : findNet4Node lo hi cc t with
  | null => exact absurd hf hne
  | node nlo nhi ncc B L R =>
    exact ⟨⟨nlo, nhi, ncc⟩, findNet4Node_sound lo hi cc t hr hb hq hqb nlo nhi ncc B L R hf⟩

theorem findNet4Node_correct_witness :
    ((findNet4Node 0 0 1 treeD ≠ .null ↔ ∃ n ∈ serializeIP4Tree treeD, netMatch 0 0 1 n) ∧
    (∀ nlo nhi ncc B L R, findNet4Node 0 0 1 treeD = .node nlo nhi ncc B L R →
      ⟨nlo, nhi, ncc⟩ ∈ serializeIP4Tree treeD ∧ netMatch 0 0 1 ⟨nlo, nhi, ncc⟩)) ∧
    ((findNet4Node 4294967295 4294967295 2 treeD ≠ .null ↔
      ∃ n ∈ serializeIP4Tree treeD, netMatch 4294967295 4294967295 2 n) ∧
    (∀ nlo nhi ncc B L R,
      findNet4Node 4294967295 4294967295 2 treeD = .node nlo nhi ncc B L R →
      ⟨nlo, nhi, ncc⟩ ∈ serializeIP4Tree treeD ∧
        netMatch 4294967295 4294967295 2 ⟨nlo, nhi, ncc⟩)) :=
  ⟨findNet4Node_correct 0 0 1 treeD (by decide) (by decide) (by decide) (by decide)
      (by decide) (by decide),
    findNet4Node_correct 4294967295 4294967295 2 treeD (by decide) (by decide) (by decide)
      (by decide) (by decide) (by decide)⟩

/-- C12: after every sequence of `addIP4Node` and `removeIP4Node` calls (with
any outcome of the allocations) applied to the empty tree, every call returns
and the record sequence written by `serializeIP4Tree` is strictly ascending by
`lo`. -/
theorem serializeIP4Tree_ascending (ops : List IP4Op) :
    ∃ t, runIP4Ops ops .null = some t ∧
      (serializeIP4Tree t).Pairwise (fun a b => a.lo < b.lo) := by
  obtain ⟨t, e, -, ho⟩ := runIP4Ops_valid ops .null trivial trivial
  exact ⟨t, e, (ordered_iff_pairwise t).1 ho⟩

/-- C13: on a valid tree whose 32-bit ranges are well formed, pairwise
non-overlapping and without two adjacent ranges of the same country code, for a
query `lo ≤ hi < 2^32` on which `findNet4Node` returns `NULL`, `addIP4Node`
returns and the tree it leaves still has pairwise non-overlapping ranges and no
two adjacent ranges with the same country code. -/
theorem addIP4Node_keeps_disjoint (alloc : Bool) (lo hi cc : Nat) (t : IP4Node)
    (hv : avl t) (ho : ordered t) (hd : disjoint t) (hr : ranges t) (hb : bounded32 t)
    (ha : noAdjacentSameCC t) (hq : lo ≤ hi) (hqb : hi < 4294967296)
    (hf : findNet4Node lo hi cc t = .null) :
    ∃ r t', addIP4Node alloc lo hi cc t = some (r, t') ∧ disjoint t' ∧ noAdjacentSameCC t' := by
  obtain ⟨r, t', e, -⟩ := addIP4Node_spec alloc lo hi cc t hv
  refine ⟨r, t', e, ?_⟩
  cases alloc with
  | false =>
    rw [addIP4Node_alloc_fails] at e
    simp at e
    rw [← e.2]
    exact ⟨hd, ha⟩
  | true =>
    have hno : ∀ n ∈ serializeIP4Tree t, ¬ netMatch lo hi cc n := fun n hn hm =>
      findNet4Node_complete lo hi cc t ho hd hr hb hq hqb ⟨n, hn, hm⟩ hf
    have hk : ∀ x ∈ serializeIP4Tree t, x.lo ≠ lo := by
      intro x hx hxl
      have := hr x hx
      exact hno x hx (Or.inl ⟨by omega, by omega⟩)
    have hmem := addIP4Node_mem lo hi cc t t' r ho hk e
    constructor
    · intro a ha' b hb' hab
      rcases (hmem a).1 ha' with h1 | h1 <;> rcases (hmem b).1 hb' with h2 | h2
      · exact absurd (h1.trans h2.symm) hab
      · have := hno b h2
        unfold netMatch at this
        subst h1
        simp only at *
        omega
      · have := hno a h1
        unfold netMatch at this
        subst h2
        simp only at *
        omega
      · exact hd a h1 b h2 hab
    · intro a ha' b hb' hcc
      rcases (hmem a).1 ha' with h1 | h1 <;> rcases (hmem b).1 hb' with h2 | h2
      · subst h1 h2
        simp only
        omega
      · have := hno b h2
        unfold netMatch at this
        subst h1
        simp only at *
        have hcc' : b.cc = cc := hcc.symm
        simp only [hcc', true_and] at this
        omega
      · have := hno a h1
        unfold netMatch at this
        subst h2
        simp only at *
        simp only [hcc, true_and] at this
        omega
      · exact ha a h1 b h2 hcc

theorem addIP4Node_keeps_disjoint_witness :
    ∃ r t', addIP4Node true 40 45 9 treeC = some (r, t') ∧ disjoint t' ∧ noAdjacentSameCC t' :=
  addIP4Node_keeps_disjoint true 40 45 9 treeC (by decide) (by decide) (by decide) (by decide)
    (by decide) (by decide) (by decide) (by decide) (by decide)

/-- C14, as stated, fails: `addIP4Node` of [10.0.0.0, 10.0.0.255] and then of
[10.0.1.0, 10.0.1.255], both with the code-word of US, leaves a tree of two
nodes, not the single node [10.0.0.0, 10.0.1.255]. -/
theorem addIP4Node_adjacent_counterexample :
    addIP4Node true 167772160 167772415 21333 .null =
        some (1, .node 167772160 167772415 21333 0 .null .null) ∧
      addIP4Node true 167772416 167772671 21333 (.node 167772160 167772415 21333 0 .null .null) =
        some (1, .node 167772160 167772415 21333 1 .null
          (.node 167772416 167772671 21333 0 .null .null)) ∧
      serializeIP4Tree (.node 167772160 167772415 21333 1 .null
          (.node 167772416 167772671 21333 0 .null .null)) ≠ [⟨167772160, 167772671, 21333⟩] := by
  decide

/-- C14, amended: `addIP4Node` does not merge. For `a ≤ b < c < 2^32`, inserting
`[a, b]` and then `[b+1, c]` with the same country code into the empty tree
leaves exactly the two nodes `[a, b]` and `[b+1, c]`; the adjacency is reported
by `findNet4Node`, which returns the node `[a, b]` for the query
`(b+1, c, cc)` on the tree holding `[a, b]`. -/
theorem addIP4Node_adjacent_not_merged (a b c cc : Nat) (hab : a ≤ b) (hbc : b < c)
    (hc : c < 4294967296) :
    addIP4Node true a b cc .null = some (1, .node a b cc 0 .null .null) ∧
      addIP4Node true (b + 1) c cc (.node a b cc 0 .null .null) =
        some (1, .node a b cc 1 .null (.node (b + 1) c cc 0 .null .null)) ∧
      serializeIP4Tree (.node a b cc 1 .null (.node (b + 1) c cc 0 .null .null)) =
        [⟨a, b, cc⟩, ⟨b + 1, c, cc⟩] ∧
      findNet4Node (b + 1) c cc (.node a b cc 0 .null .null) = .node a b cc 0 .null .null := by
  refine ⟨by simp [addIP4Node, allocateIP4Node], ?_, by simp [serializeIP4Tree], ?_⟩
  · have h1 : ¬ b + 1 < a := by omega
    have h2 : b + 1 > a := by omega
    simp [addIP4Node, allocateIP4Node, addIP4Tail, h1, h2, cbool]
  · have ht : netTest (b + 1) c cc a b cc := by
      unfold netTest
      simp only [if_true]
      omega
    simp [findNet4Node, ht]

theorem addIP4Node_adjacent_not_merged_witness :
    addIP4Node true 167772160 167772415 21333 .null =
        some (1, .node 167772160 167772415 21333 0 .null .null) ∧
      addIP4Node true (167772415 + 1) 167772671 21333
          (.node 167772160 167772415 21333 0 .null .null) =
        some (1, .node 167772160 167772415 21333 1 .null
          (.node (167772415 + 1) 167772671 21333 0 .null .null)) ∧
      serializeIP4Tree (.node 167772160 167772415 21333 1 .null
          (.node (167772415 + 1) 167772671 21333 0 .null .null)) =
        [⟨167772160, 167772415, 21333⟩, ⟨167772415 + 1, 167772671, 21333⟩] ∧
      findNet4Node (167772415 + 1) 167772671 21333
          (.node 167772160 167772415 21333 0 .null .null) =
        .node 167772160 167772415 21333 0 .null .null :=
  addIP4Node_adjacent_not_merged 167772160 167772415 167772671 21333 (by decide) (by decide)
    (by decide)

/-- C15, as stated, fails at `v = 2^32 - 1`: after `storeCC` of the token
`DE=4294967295` on a fresh table, `findCC` returns the node of DE with
`ui = 0`, because `storeCC` keeps a value only when `0 < ui < 4294967295`. -/
theorem storeCC_max_value_counterexample :
    68 :: 69 :: 61 :: decimal 4294967295 = cstr "DE=4294967295" ∧
      storeCC cceSpec 676 true (createCCTable 676) (cstr "DE=4294967295") =
        some ((createCCTable 676).set 1 (.node (codeWord 68 69) 0 0 .null .null)) ∧
      findCC cceSpec 676 ((createCCTable 676).set 1 (.node (codeWord 68 69) 0 0 .null .null))
        (codeWord 68 69) = some (.node (codeWord 68 69) 0 0 .null .null) := by
  have h := storeCC_fresh cceSpec 676 (by decide) 68 69 (61 :: decimal 4294967295)
    (token_not_space 68 69 4294967295 (by decide) (by decide)) 0
    (by rw [storeCC_value_of_decimal]; decide)
  have ht : 68 :: 69 :: 61 :: decimal 4294967295 = cstr "DE=4294967295" := by decide
  have hi : cci cceSpec 676 (codeWord (toupper 68) (toupper 69)) = 1 := by decide
  have hu : codeWord (toupper 68) (toupper 69) = codeWord 68 69 := by decide
  rw [hi, hu, ht] at h
  exact ⟨ht, h⟩

/-- C15, amended: for every two-letter code and every value `v` with
`0 ≤ v ≤ 2^32 - 2`, after `storeCC` of the token `CODE=v` on a fresh table (of at
least two buckets, the allocation succeeding), `findCC` for the code-word of
the code returns a node whose `ui` equals `v`. -/
theorem storeCC_findCC_roundtrip (cce : Nat → Nat) (N : Nat) (hN : 2 ≤ N) (c1 c2 v : Nat)
    (h1 : isLetter c1) (h2 : isLetter c2) (hv : v ≤ 4294967294) :
    ∃ table', storeCC cce N true (createCCTable N) (c1 :: c2 :: 61 :: decimal v) = some table' ∧
      findCC cce N table' (codeWord (toupper c1) (toupper c2)) =
        some (.node (codeWord (toupper c1) (toupper c2)) v 0 .null .null) := by
  have h := storeCC_fresh cce N hN c1 c2 (61 :: decimal v) (token_not_space c1 c2 v h1 h2) v
    (by rw [storeCC_value_of_decimal, if_pos (by omega)])
  exact ⟨_, h.1, h.2⟩

theorem storeCC_findCC_roundtrip_witness :
    68 :: 69 :: 61 :: decimal 10100 = cstr "DE=10100" ∧
      ∃ table', storeCC cceSpec 676 true (createCCTable 676) (68 :: 69 :: 61 :: decimal 10100) =
          some table' ∧
        findCC cceSpec 676 table' (codeWord (toupper 68) (toupper 69)) =
          some (.node (codeWord (toupper 68) (toupper 69)) 10100 0 .null .null) :=
  ⟨by decide, storeCC_findCC_roundtrip cceSpec 676 (by decide) 68 69 10100 (by decide)
    (by decide) (by decide)⟩

/-- C16: for every two-letter code given as a bare token, in either letter case,
`storeCC` on a fresh table (of at least two buckets, the allocation succeeding)
inserts a node keyed by the upper-cased code-word with `ui = 0`, and `findCC`
for that code-word returns that node. -/
theorem storeCC_bare_code (cce : Nat → Nat) (N : Nat) (hN : 2 ≤ N) (c1 c2 : Nat)
    (h1 : isLetter c1) (h2 : isLetter c2) :
    ∃ table', storeCC cce N true (createCCTable N) [c1, c2] = some table' ∧
      findCC cce N table' (codeWord (toupper c1) (toupper c2)) =
        some (.node (codeWord (toupper c1) (toupper c2)) 0 0 .null .null) := by
  have hs : ∀ c ∈ [c1, c2], isspace c = false := by
    intro c hc
    simp only [List.mem_cons, List.mem_singleton, List.not_mem_nil, or_false] at hc
    rcases hc with hc | hc
    · subst hc; exact isLetter_not_space _ h1
    · subst hc; exact isLetter_not_space _ h2
  have h := storeCC_fresh cce N hN c1 c2 [] hs 0 (by simp [storeCCValue])
  exact ⟨_, h.1, h.2⟩

theorem storeCC_bare_code_witness :
    ([85, 83] = cstr "US" ∧ [117, 115] = cstr "us" ∧
      codeWord (toupper 117) (toupper 115) = codeWord 85 83) ∧
    (∃ table', storeCC cceSpec 676 true (createCCTable 676) [85, 83] = some table' ∧
      findCC cceSpec 676 table' (codeWord (toupper 85) (toupper 83)) =
        some (.node (codeWord (toupper 85) (toupper 83)) 0 0 .null .null)) ∧
    (∃ table', storeCC cceSpec 676 true (createCCTable 676) [117, 115] = some table' ∧
      findCC cceSpec 676 table' (codeWord (toupper 117) (toupper 115)) =
        some (.node (codeWord (toupper 117) (toupper 115)) 0 0 .null .null)) :=
  ⟨by decide, storeCC_bare_code cceSpec 676 (by decide) 85 83 (by decide) (by decide),
    storeCC_bare_code cceSpec 676 (by decide) 117 115 (by decide) (by decide)⟩

/-- C17, as stated, fails at `v1 = 2^32 - 1`: after `storeCC` of `DE=4294967295`
and then of `DE=7` on a fresh table, `findCC` returns the node of DE with
`ui = 0`, not `v1`. -/
theorem storeCC_first_wins_counterexample :
    (68 :: 69 :: 61 :: decimal 4294967295 = cstr "DE=4294967295" ∧
      68 :: 69 :: 61 :: decimal 7 = cstr "DE=7") ∧
      storeCC cceSpec 676 true (createCCTable 676) (cstr "DE=4294967295") =
        some ((createCCTable 676).set 1 (.node (codeWord 68 69) 0 0 .null .null)) ∧
      storeCC cceSpec 676 true
          ((createCCTable 676).set 1 (.node (codeWord 68 69) 0 0 .null .null)) (cstr "DE=7") =
        some ((createCCTable 676).set 1 (.node (codeWord 68 69) 0 0 .null .null)) ∧
      findCC cceSpec 676 ((createCCTable 676).set 1 (.node (codeWord 68 69) 0 0 .null .null))
        (codeWord 68 69) = some (.node (codeWord 68 69) 0 0 .null .null) := by
  have h := storeCC_fresh cceSpec 676 (by decide) 68 69 (61 :: decimal 4294967295)
    (token_not_space 68 69 4294967295 (by decide) (by decide)) 0
    (by rw [storeCC_value_of_decimal]; decide)
  have h' := storeCC_again cceSpec 676 (by decide) true 68 69 (61 :: decimal 7)
    (token_not_space 68 69 7 (by decide) (by decide)) 0
  have ht : 68 :: 69 :: 61 :: decimal 4294967295 = cstr "DE=4294967295" := by decide
  have ht' : 68 :: 69 :: 61 :: decimal 7 = cstr "DE=7" := by decide
  have hi : cci cceSpec 676 (codeWord (toupper 68) (toupper 69)) = 1 := by decide
  have hu : codeWord (toupper 68) (toupper 69) = codeWord 68 69 := by decide
  rw [hi, hu, ht] at h
  rw [hi, hu, ht'] at h'
  exact ⟨⟨ht, ht'⟩, h.1, h', h.2⟩

/-- C17, amended: first occurrence wins. For every two-letter code, every `v1`
with `0 ≤ v1 ≤ 2^32 - 2` and every `v2`, after `storeCC` of `CODE=v1` on a fresh
table the second `storeCC`, of `CODE=v2`, leaves the table as it is (whatever
the outcome of an allocation would be), and `findCC` returns the node with
`ui = v1`. -/
theorem storeCC_first_wins (cce : Nat → Nat) (N : Nat) (hN : 2 ≤ N) (alloc : Bool)
    (c1 c2 v1 v2 : Nat) (h1 : isLetter c1) (h2 : isLetter c2) (hv : v1 ≤ 4294967294) :
    ∃ table', storeCC cce N true (createCCTable N) (c1 :: c2 :: 61 :: decimal v1) = some table' ∧
      storeCC cce N alloc table' (c1 :: c2 :: 61 :: decimal v2) = some table' ∧
      findCC cce N table' (codeWord (toupper c1) (toupper c2)) =
        some (.node (codeWord (toupper c1) (toupper c2)) v1 0 .null .null) := by
  have h := storeCC_fresh cce N hN c1 c2 (61 :: decimal v1) (token_not_space c1 c2 v1 h1 h2) v1
    (by rw [storeCC_value_of_decimal, if_pos (by omega)])
  exact ⟨_, h.1,
    storeCC_again cce N hN alloc c1 c2 (61 :: decimal v2) (token_not_space c1 c2 v2 h1 h2) v1,
    h.2⟩

theorem storeCC_first_wins_witness :
    (68 :: 69 :: 61 :: decimal 10100 = cstr "DE=10100" ∧
      68 :: 69 :: 61 :: decimal 7 = cstr "DE=7") ∧
    ∃ table', storeCC cceSpec 676 true (createCCTable 676) (68 :: 69 :: 61 :: decimal 10100) =
        some table' ∧
      storeCC cceSpec 676 true table' (68 :: 69 :: 61 :: decimal 7) = some table' ∧
      findCC cceSpec 676 table' (codeWord (toupper 68) (toupper 69)) =
        some (.node (codeWord (toupper 68) (toupper 69)) 10100 0 .null .null) :=
  ⟨by decide, storeCC_first_wins cceSpec 676 (by decide) true 68 69 10100 7 (by decide)
    (by decide) (by decide)⟩

/-- C18: `cci` returns the truth value of `cce(cc) < ccTableSize`, 1 or 0, not
`cce(cc) mod ccTableSize`: for the code-words of AC and AD, of index 2 and 3,
with 676 buckets the bucket is 1 for both. -/
theorem cci_is_truth_value :
    (∀ (cce : Nat → Nat) (N cc : Nat),
      cci cce N cc = if cce (cc % 65536) < N then 1 else 0) ∧
    (cceSpec (codeWord 65 67) % 676 = 2 ∧ cci cceSpec 676 (codeWord 65 67) = 1) ∧
    (cceSpec (codeWord 65 68) % 676 = 3 ∧ cci cceSpec 676 (codeWord 65 68) = 1) := by
  refine ⟨?_, by decide, by decide⟩
  intro cce N cc
  unfold cci
  split <;> split <;> simp_all

/-- C19: the blocks printed for the range [0, 2] are the single block 0/31,
which covers 0 and 1: the loop ends when `ip` reaches `hi`, so address 2 of the
range is covered by no block. Likewise for [3, 100], where 100 is left out. -/
theorem ip4Subnets_leaves_last_address :
    (ip4Subnets 2 64 0 = ([(0, 31)], .done) ∧ ¬ inBlock (0, 31) 2) ∧
    (ip4Subnets 100 64 3 =
        ([(3, 32), (4, 30), (8, 29), (16, 28), (32, 27), (64, 27), (96, 30)], .done) ∧
      ∀ b ∈ (ip4Subnets 100 64 3).1, ¬ inBlock b 100) := by
  decide

/-- C20: for a range `lo ≤ hi < 2^32`, every pair `(ip, 32 - m)` printed by the
loop has `m ≤ 32`, `ip` a multiple of `2^m`, `lo ≤ ip` and `ip + 2^m - 1 ≤ hi`,
and `m` is the largest exponent for which `ip` is a multiple of `2^m` and
`ip + 2^m - 1 ≤ hi`; unless the range is the whole address space, the first
pair is printed for `ip = lo`. -/
theorem ip4Subnets_blocks_valid (lo hi fuel : Nat) (hle : lo ≤ hi) (hhi : hi < 4294967296) :
    (∀ b ∈ (ip4Subnets hi fuel lo).1,
      b.2 ≤ 32 ∧ 2 ^ (32 - b.2) ∣ b.1 ∧ lo ≤ b.1 ∧ b.1 + 2 ^ (32 - b.2) - 1 ≤ hi ∧
        ∀ k, 2 ^ k ∣ b.1 → b.1 + 2 ^ k - 1 ≤ hi → k ≤ 32 - b.2) ∧
    (¬ (lo = 0 ∧ hi = 4294967295) →
      ∃ len rest, (ip4Subnets hi (fuel + 1) lo).1 = (lo, len) :: rest) := by
  refine ⟨?_, ip4Subnets_first lo hi fuel hle hhi⟩
  intro b hb
  obtain ⟨⟨h1, h2, h3, h4⟩, h5⟩ := ip4Subnets_blocks hi hhi fuel lo hle b hb
  exact ⟨h1, h2, h5, h3, h4⟩

theorem ip4Subnets_blocks_valid_witness :
    (ip4Subnets 100 63 3).1 =
        [(3, 32), (4, 30), (8, 29), (16, 28), (32, 27), (64, 27), (96, 30)] ∧
    ((∀ b ∈ (ip4Subnets 100 63 3).1,
      b.2 ≤ 32 ∧ 2 ^ (32 - b.2) ∣ b.1 ∧ 3 ≤ b.1 ∧ b.1 + 2 ^ (32 - b.2) - 1 ≤ 100 ∧
        ∀ k, 2 ^ k ∣ b.1 → b.1 + 2 ^ k - 1 ≤ 100 → k ≤ 32 - b.2) ∧
    (¬ (3 = 0 ∧ 100 = 4294967295) →
      ∃ len rest, (ip4Subnets 100 (63 + 1) 3).1 = (3, len) :: rest)) :=
  ⟨by decide, ip4Subnets_blocks_valid 3 100 63 (by decide) (by decide)⟩

/-- C21: for `hi < 2^32 - 1` the loop ends by its condition after at most 64
blocks; for `hi = 2^32 - 1` it does not: after the block that ends at `hi` the
`uint32_t` sum `ip += 1<<m` wraps to 0, which is below `hi`, so the loop goes on
and shifts by `m = 32`, undefined behaviour. For the range of the single address
255.255.255.255 the run prints one block and then reaches that shift. -/
theorem ip4Subnets_wraps_at_max :
    (∀ lo hi fuel, lo ≤ hi → hi < 4294967295 → 64 ≤ fuel →
      (ip4Subnets hi fuel lo).2 = .done ∧ (ip4Subnets hi fuel lo).1.length ≤ 64) ∧
    ip4Subnets 4294967295 64 4294967295 = ([(4294967295, 32)], .undefined) ∧
    ip4Subnets 4294967295 64 4294967290 =
      ([(4294967290, 31), (4294967292, 30)], .undefined) ∧
    (∀ lo fuel, lo ≤ 4294967295 → (ip4Subnets 4294967295 fuel lo).2 ≠ .done) :=
  ⟨ip4Subnets_terminates, by decide, by decide,
    fun lo fuel h => ip4Subnets_max_not_done fuel lo (by omega)⟩

theorem ip4Subnets_wraps_at_max_witness :
    (ip4Subnets 100 64 3).2 = .done ∧ (ip4Subnets 100 64 3).1.length ≤ 64 :=
  ip4Subnets_wraps_at_max.1 3 100 64 (by decide) (by decide) (by decide)

/-- C22: `toff + cce(cc)*10` is evaluated in the type of `cce(cc)` before it is
widened to `int64_t`. With `int` the sum for AB (index 1) and
`toff = 2147483647` overflows, undefined behaviour, where the claim gives
2147483657; with `uint32_t` the sum is taken modulo 2^32, so for AA (index 0)
and `toff = -1` the result is 4294967295 where the claim gives 0, and the range
test of `ccv` never fails. Only a 64-bit `cce` would give the claimed values. -/
theorem ccv_sum_in_32_bits :
    (cceSpec (codeWord 65 66 % 65536) = 1 ∧
      ccv .sint32 cceSpec (codeWord 65 66) 2147483647 = none) ∧
    (cceSpec (codeWord 65 65 % 65536) = 0 ∧
      ccv .uint32 cceSpec (codeWord 65 65) (-1) = some 4294967295) ∧
    (∀ (cce : Nat → Nat) (cc : Nat) (toff : Int), ccv .uint32 cce cc toff =
      some ((toff + (cce (cc % 65536) : Int) * 10) % 4294967296).toNat) ∧
    (∀ (cce : Nat → Nat) (cc : Nat) (toff : Int),
      -2147483648 ≤ toff ∧ toff ≤ 2147483647 → cce (cc % 65536) < 4294967296 →
      ccv .sint64 cce cc toff =
        some (if 0 ≤ toff + (cce (cc % 65536) : Int) * 10 ∧
            toff + (cce (cc % 65536) : Int) * 10 ≤ 4294967295 then
          (toff + (cce (cc % 65536) : Int) * 10).toNat else 0)) :=
  ⟨by decide, by decide, ccv_uint32, ccv_sint64⟩

theorem ccv_sum_in_32_bits_witness :
    ccv .sint64 cceSpec (codeWord 65 65) (-1) =
      some (if 0 ≤ (-1 : Int) + (cceSpec (codeWord 65 65 % 65536) : Int) * 10 ∧
          (-1 : Int) + (cceSpec (codeWord 65 65 % 65536) : Int) * 10 ≤ 4294967295 then
        ((-1 : Int) + (cceSpec (codeWord 65 65 % 65536) : Int) * 10).toNat else 0) :=
  ccv_sum_in_32_bits.2.2.2 cceSpec (codeWord 65 65) (-1) (by decide) (by decide)

/-- C23, as stated, fails: with base 0 the value printed for ZZ (index 675) is
6750, not 675, whatever the type of `cce`. -/
theorem directive_fallback_counterexample :
    cceSpec (codeWord 90 90 % 65536) = 675 ∧
    directive .sint32 cceSpec false 0 0 0 true 0 (codeWord 90 90) 167772160 24 =
      some (.table 0 167772160 24 (some 6750)) ∧
    directive .uint32 cceSpec false 0 0 0 true 0 (codeWord 90 90) 167772160 24 =
      some (.table 0 167772160 24 (some 6750)) ∧
    directive .sint64 cceSpec false 0 0 0 true 0 (codeWord 90 90) 167772160 24 =
      some (.table 0 167772160 24 (some 6750)) := by
  decide

/-- C23, amended: for a record whose code has no explicit value (`ui = 0`), with
no global value (`tval = 0`) and the `-x` flag given with a base `toff ≥ 0`, the
value printed is `toff + idx * 10` for the index `idx = cce(cc)` of the record's
code, as long as that sum is at most 2^31 - 1. -/
theorem directive_fallback_value (ty : CceType) (cce : Nat → Nat) (tnum toff : Int)
    (cc ip len : Nat) (h0 : 0 ≤ toff)
    (h1 : toff + (cce (cc % 65536) : Int) * 10 ≤ 2147483647) :
    directive ty cce false tnum 0 0 true toff cc ip len =
      some (.table tnum ip len (some (toff + (cce (cc % 65536) : Int) * 10).toNat)) := by
  have hm : cc % 65536 % 65536 = cc % 65536 := by omega
  unfold directive
  simp only [Bool.false_eq_true, if_false, ne_eq, not_true_eq_false, if_true]
  rw [ccv_exact ty cce (cc % 65536) toff h0 (by rw [hm]; exact h1), hm]

theorem directive_fallback_value_witness :
    directive .uint32 cceSpec false 0 0 0 true 10000 (codeWord 90 90) 167772160 24 =
      some (.table 0 167772160 24
        (some ((10000 : Int) + (cceSpec (codeWord 90 90 % 65536) : Int) * 10).toNat)) :=
  directive_fallback_value .uint32 cceSpec 0 10000 (codeWord 90 90) 167772160 24 (by decide)
    (by decide)

/-- C24: in non-plain table generation the value of the directive is `ui` if
`ui` is nonzero; otherwise `tval` if `tval` is nonzero; otherwise the value of
`ccv(cc, toff)` if the `-x` flag was given; otherwise no value is printed. This
holds for every record, block and combination of `ui`, `tval` and the flag. -/
theorem directive_value_priority (ty : CceType) (cce : Nat → Nat) (tnum toff : Int)
    (ui tval cc ip len : Nat) (ccValFlag : Bool) :
    (ui ≠ 0 → directive ty cce false tnum ui tval ccValFlag toff cc ip len =
      some (.table tnum ip len (some ui))) ∧
    (ui = 0 → tval ≠ 0 → directive ty cce false tnum ui tval ccValFlag toff cc ip len =
      some (.table tnum ip len (some tval))) ∧
    (ui = 0 → tval = 0 → ccValFlag = true →
      directive ty cce false tnum ui tval ccValFlag toff cc ip len =
        (ccv ty cce (cc % 65536) toff).map (fun v => .table tnum ip len (some v))) ∧
    (ui = 0 → tval = 0 → ccValFlag = false →
      directive ty cce false tnum ui tval ccValFlag toff cc ip len =
        some (.table tnum ip len none)) := by
  unfold directive
  refine ⟨?_, ?_, ?_, ?_⟩
  · intro h
    simp [h]
  · intro h1 h2
    simp [h1, h2]
  · intro h1 h2 h3
    simp only [h1, h2, h3, Bool.false_eq_true, if_false, ne_eq, not_true_eq_false, if_true]
    cases ccv ty cce (cc % 65536) toff <;> rfl
  · intro h1 h2 h3
    simp [h1, h2, h3]

theorem directive_value_priority_witness :
    directive .uint32 cceSpec false 3 10100 77 true 0 (codeWord 68 69) 167772160 24 =
        some (.table 3 167772160 24 (some 10100)) ∧
      directive .uint32 cceSpec false 3 0 77 true 0 (codeWord 68 69) 167772160 24 =
        some (.table 3 167772160 24 (some 77)) ∧
      directive .uint32 cceSpec false 3 0 0 true 0 (codeWord 68 69) 167772160 24 =
        (ccv .uint32 cceSpec (codeWord 68 69 % 65536) 0).map
          (fun v => .table 3 167772160 24 (some v)) ∧
      directive .uint32 cceSpec false 3 0 0 false 0 (codeWord 68 69) 167772160 24 =
        some (.table 3 167772160 24 none) :=
  ⟨(directive_value_priority .uint32 cceSpec 3 0 10100 77 (codeWord 68 69) 167772160 24
      true).1 (by decide),
    (directive_value_priority .uint32 cceSpec 3 0 0 77 (codeWord 68 69) 167772160 24
      true).2.1 rfl (by decide),
    (directive_value_priority .uint32 cceSpec 3 0 0 0 (codeWord 68 69) 167772160 24
      true).2.2.1 rfl rfl rfl,
    (directive_value_priority .uint32 cceSpec 3 0 0 0 (codeWord 68 69) 167772160 24
      false).2.2.2 rfl rfl rfl⟩

/-- C25: for a tree ordered by `lo` with pairwise disjoint well-formed ranges
and the array written by `serializeIP4Tree`, the bisection search for an
address `p` returns the index of the record whose range contains `p`, and a
negative value (not found) when no range contains `p`. -/
theorem bisectionIP4Search_roundtrip (t : IP4Node) (p : Nat) (ho : ordered t)
    (hd : disjoint t) (hr : ranges t) :
    (∀ (i : Nat) (r : IP4Set), (serializeIP4Tree t)[i]? = some r → r.lo ≤ p → p ≤ r.hi →
      bisectionIP4Search p (serializeIP4Tree t) = (i : Int)) ∧
    ((∀ r ∈ serializeIP4Tree t, ¬ (r.lo ≤ p ∧ p ≤ r.hi)) →
      bisectionIP4Search p (serializeIP4Tree t) = -1) := by
  constructor
  · intro i r hi h1 h2
    obtain ⟨hlt, -⟩ := List.getElem?_eq_some.1 hi
    exact bisectionIP4Loop_found p _ (serialize_separated t ho hd hr)
      (fun j x hx => hr x (List.getElem?_mem hx)) i r hi h1 h2 _ 0 _ (le_refl _) (by omega)
      (by omega) hlt
  · intro hno
    rcases bisectionIP4Loop_sound p (serializeIP4Tree t) (serializeIP4Tree t).length 0
      (serializeIP4Tree t).length with h | ⟨k, r, -, hk, h1, h2⟩
    · exact h
    · exact absurd ⟨h1, h2⟩ (hno r (List.getElem?_mem hk))

theorem bisectionIP4Search_roundtrip_witness :
    (serializeIP4Tree treeC)[2]? = some ⟨25, 28, 5⟩ ∧
    bisectionIP4Search 27 (serializeIP4Tree treeC) = 2 ∧
    bisectionIP4Search 29 (serializeIP4Tree treeC) = -1 ∧
    ((∀ (i : Nat) (r : IP4Set), (serializeIP4Tree treeC)[i]? = some r → r.lo ≤ 27 → 27 ≤ r.hi →
      bisectionIP4Search 27 (serializeIP4Tree treeC) = (i : Int)) ∧
    ((∀ r ∈ serializeIP4Tree treeC, ¬ (r.lo ≤ 27 ∧ 27 ≤ r.hi)) →
      bisectionIP4Search 27 (serializeIP4Tree treeC) = -1)) :=
  ⟨by decide, by decide, by decide,
    bisectionIP4Search_roundtrip treeC 27 (by decide) (by decide) (by decide)⟩

/-- C26: for every table and every token whose trimmed length is less than 2,
`storeCC` returns and leaves the table as it is, whatever `cce`, the table size
and the outcome of an allocation would be. -/
theorem storeCC_short_token (cce : Nat → Nat) (N : Nat) (alloc : Bool) (table : List CCNode)
    (ccui : List Nat) (h : strvlen (trim ccui) < 2) :
    storeCC cce N alloc table ccui = some table := by
  unfold storeCC
  have hn : ¬ strvlen (trim ccui) ≥ 2 := by omega
  simp only [hn, if_false]

theorem storeCC_short_token_witness :
    (trim (cstr " D ") = cstr "D" ∧ strvlen (trim (cstr " D ")) = 1) ∧
      storeCC cceSpec 676 true
          ((createCCTable 676).set 1 (.node (codeWord 68 69) 7 0 .null .null)) (cstr " D ") =
        some ((createCCTable 676).set 1 (.node (codeWord 68 69) 7 0 .null .null)) :=
  ⟨by decide, storeCC_short_token cceSpec 676 true _ (cstr " D ") (by decide)⟩

/-- C27: for a node `o` with `B = -2` or `+2` equal to its actual height
difference, whose two subtrees are valid AVL trees with consistent `B` fields,
`balanceIP4Node` returns and replaces `o` by a subtree with the same in-order
record sequence that is a valid AVL tree with every `B` equal to the actual
height difference; it returns 1 exactly when the height of the subtree is one
less than before and 0 exactly when the height is unchanged. -/
theorem balanceIP4Node_rotation (lo hi cc : Nat) (B : Int) (L R : IP4Node)
    (hL : avl L) (hR : avl R) (hB : B = (height R : Int) - (height L : Int))
    (h2 : B = -2 ∨ B = 2) :
    ∃ r t, balanceIP4Node (.node lo hi cc B L R) = some (r, t) ∧
      serializeIP4Tree t = serializeIP4Tree (.node lo hi cc B L R) ∧ avl t ∧
      (r = 0 ∨ r = 1) ∧
      (r = 1 ↔ height t + 1 = height (.node lo hi cc B L R)) ∧
      (r = 0 ↔ height t = height (.node lo hi cc B L R)) := by
  obtain ⟨r, t, e, ht, hh, hr, -, -, -⟩ := balance_spec lo hi cc B L R hL hR hB h2
  exact ⟨r, t, e, balance_serialize _ _ _ e, ht, hr, by omega, by omega⟩

theorem balanceIP4Node_rotation_witness :
    (treeE = .node 50 59 1 (-2) (.node 20 24 2 1 .null (.node 30 39 4 0 .null .null)) .null ∧
      balanceIP4Node treeE = some (1, .node 30 39 4 0 (.node 20 24 2 0 .null .null)
        (.node 50 59 1 0 .null .null))) ∧
    ∃ r t, balanceIP4Node (.node 50 59 1 (-2)
        (.node 20 24 2 1 .null (.node 30 39 4 0 .null .null)) .null) = some (r, t) ∧
      serializeIP4Tree t = serializeIP4Tree (.node 50 59 1 (-2)
        (.node 20 24 2 1 .null (.node 30 39 4 0 .null .null)) .null) ∧
      avl t ∧ (r = 0 ∨ r = 1) ∧
      (r = 1 ↔ height t + 1 = height (.node 50 59 1 (-2)
        (.node 20 24 2 1 .null (.node 30 39 4 0 .null .null)) .null)) ∧
      (r = 0 ↔ height t = height (.node 50 59 1 (-2)
        (.node 20 24 2 1 .null (.node 30 39 4 0 .null .null)) .null)) :=
  ⟨by decide, balanceIP4Node_rotation 50 59 1 (-2)
    (.node 20 24 2 1 .null (.node 30 39 4 0 .null .null)) .null
    (by decide) (by decide) (by decide) (by decide)⟩

/-- C28: when `removeIP4Node` removes a node with two children in a valid AVL
tree, the node is replaced by its in-order predecessor (the last record of the
left subtree, which loses it) if its `B` is -1, and by its in-order successor
(the first record of the right subtree, which loses it) if its `B` is 0 or +1;
the replacement gets the removed node's `B`, to which the height lost by the
shortened subtree is then applied (added on the left, subtracted on the
right), and the other subtree is kept as it is. -/
theorem removeIP4Node_replacement (lo hi cc : Nat) (B : Int) (L R : IP4Node)
    (hv : avl (.node lo hi cc B L R)) (hL : L ≠ .null) (hR : R ≠ .null) :
    (B = -1 → ∃ r L' x, removeIP4Node lo (.node lo hi cc B L R) =
        some (r, .node x.lo x.hi x.cc (B + ((height L : Int) - (height L' : Int))) L' R) ∧
      serializeIP4Tree L = serializeIP4Tree L' ++ [x] ∧ avl L' ∧
      ((height L : Int) - (height L' : Int) = 0 ∨ (height L : Int) - (height L' : Int) = 1)) ∧
    (B = 0 ∨ B = 1 → ∃ r R' x, removeIP4Node lo (.node lo hi cc B L R) =
        some (r, .node x.lo x.hi x.cc (B - ((height R : Int) - (height R' : Int))) L R') ∧
      serializeIP4Tree R = x :: serializeIP4Tree R' ∧ avl R' ∧
      ((height R : Int) - (height R' : Int) = 0 ∨ (height R : Int) - (height R' : Int) = 1)) := by
  simp only [avl] at hv
  obtain ⟨hvL, hvR, -, -, -⟩ := hv
  rw [removeIP4Node_two_children lo hi cc B L R hL hR]
  constructor
  · intro hb
    subst hb
    exact removeIP4Two_pred L R hvL hL
  · intro hb
    exact removeIP4Two_succ B L R hvR hR hb

theorem removeIP4Node_replacement_witness :
    treeC = .node 50 59 1 (-1)
      (.node 20 24 2 1 (.node 10 19 3 0 .null .null)
        (.node 30 39 4 (-1) (.node 25 28 5 0 .null .null) .null))
      (.node 70 79 6 1 .null (.node 80 89 7 0 .null .null)) ∧
    removeIP4Node 50 treeC = some (1, .node 30 39 4 0
      (.node 20 24 2 0 (.node 10 19 3 0 .null .null) (.node 25 28 5 0 .null .null))
      (.node 70 79 6 1 .null (.node 80 89 7 0 .null .null))) ∧
    ((-1 : Int) = -1 → ∃ r L' x, removeIP4Node 50 (.node 50 59 1 (-1)
        (.node 20 24 2 1 (.node 10 19 3 0 .null .null)
          (.node 30 39 4 (-1) (.node 25 28 5 0 .null .null) .null))
        (.node 70 79 6 1 .null (.node 80 89 7 0 .null .null))) =
        some (r, .node x.lo x.hi x.cc
          (-1 + ((height (.node 20 24 2 1 (.node 10 19 3 0 .null .null)
            (.node 30 39 4 (-1) (.node 25 28 5 0 .null .null) .null)) : Int) -
              (height L' : Int))) L'
          (.node 70 79 6 1 .null (.node 80 89 7 0 .null .null))) ∧
      serializeIP4Tree (.node 20 24 2 1 (.node 10 19 3 0 .null .null)
          (.node 30 39 4 (-1) (.node 25 28 5 0 .null .null) .null)) =
        serializeIP4Tree L' ++ [x] ∧ avl L' ∧
      ((height (.node 20 24 2 1 (.node 10 19 3 0 .null .null)
          (.node 30 39 4 (-1) (.node 25 28 5 0 .null .null) .null)) : Int) -
            (height L' : Int) = 0 ∨
        (height (.node 20 24 2 1 (.node 10 19 3 0 .null .null)
          (.node 30 39 4 (-1) (.node 25 28 5 0 .null .null) .null)) : Int) -
            (height L' : Int) = 1)) :=
  ⟨rfl, by decide, (removeIP4Node_replacement 50 59 1 (-1)
    (.node 20 24 2 1 (.node 10 19 3 0 .null .null)
      (.node 30 39 4 (-1) (.node 25 28 5 0 .null .null) .null))
    (.node 70 79 6 1 .null (.node 80 89 7 0 .null .null))
    (by decide) (by simp) (by simp)).1⟩

/-- C29: on a valid tree, for an address equal to the low bound of a node,
`removeIP4Node` returns and the in-order record sequence after the call is the
sequence before the call with exactly that node's record deleted: the records
before it and the records after it are kept as they are, in their order. -/
theorem removeIP4Node_deletes_record (t : IP4Node) (n : IP4Set) (hv : avl t) (ho : ordered t)
    (hn : n ∈ serializeIP4Tree t) :
    ∃ r t' l1 l2, removeIP4Node n.lo t = some (r, t') ∧
      serializeIP4Tree t = l1 ++ n :: l2 ∧ serializeIP4Tree t' = l1 ++ l2 := by
  obtain ⟨r, t', e, -⟩ := removeIP4Node_spec n.lo t hv
  obtain ⟨l1, l2, e1, e2⟩ := filter_remove_key _ n ((ordered_iff_pairwise t).1 ho) hn
  exact ⟨r, t', l1, l2, e, e1, by rw [removeIP4Node_serialize n.lo t t' r ho e, e2]⟩

theorem removeIP4Node_deletes_record_witness :
    ∃ r t' l1 l2, removeIP4Node 20 treeC = some (r, t') ∧
      serializeIP4Tree treeC = l1 ++ ⟨20, 24, 2⟩ :: l2 ∧ serializeIP4Tree t' = l1 ++ l2 :=
  removeIP4Node_deletes_record treeC ⟨20, 24, 2⟩ (by decide) (by decide) (by decide)

/-- C30: after `storeCC` of DE on a fresh table of 676 buckets, `removeCC` of
US, which is not stored, empties the bucket of DE: `cci` sends both codes to
bucket 1, whose root DE has no children, and `removeCC` frees such a root
without comparing its key. `findCC` for DE then returns `NULL`. -/
theorem removeCC_removes_other_code :
    storeCC cceSpec 676 true (createCCTable 676) (cstr "DE") =
      some ((createCCTable 676).set 1 (.node (codeWord 68 69) 0 0 .null .null)) ∧
    findCC cceSpec 676 ((createCCTable 676).set 1 (.node (codeWord 68 69) 0 0 .null .null))
      (codeWord 68 69) = some (.node (codeWord 68 69) 0 0 .null .null) ∧
    codeWord 85 83 ≠ codeWord 68 69 ∧
    removeCC cceSpec 676 ((createCCTable 676).set 1 (.node (codeWord 68 69) 0 0 .null .null))
      (codeWord 85 83) = some ((createCCTable 676).set 1 .null) ∧
    findCC cceSpec 676 ((createCCTable 676).set 1 .null) (codeWord 68 69) = some .null := by
  have hs : ∀ c ∈ [68, 69], isspace c = false := by decide
  have h := storeCC_fresh cceSpec 676 (by decide) 68 69 [] hs 0 (by simp [storeCCValue])
  have ht : [68, 69] = cstr "DE" := by decide
  have hi : cci cceSpec 676 (codeWord (toupper 68) (toupper 69)) = 1 := by decide
  have hu : codeWord (toupper 68) (toupper 69) = codeWord 68 69 := by decide
  have hde : cci cceSpec 676 (codeWord 68 69) = 1 := by decide
  have hus : cci cceSpec 676 (codeWord 85 83) = 1 := by decide
  have hlen : 1 < (createCCTable 676).length := by rw [createCCTable_length]; decide
  rw [hi, hu, ht] at h
  refine ⟨h.1, h.2, by decide, ?_, ?_⟩
  · have hrem := removeCC_single cceSpec 676
      ((createCCTable 676).set 1 (.node (codeWord 68 69) 0 0 .null .null))
      (codeWord 85 83) (codeWord 68 69) 0 0
      (by rw [hus]; exact List.getElem?_set_self hlen)
    rw [hus, List.set_set] at hrem
    exact hrem
  · have hf := findCC_set cceSpec 676 (createCCTable 676) (codeWord 68 69) .null
      (by rw [hde]; exact hlen)
    rw [hde] at hf
    rw [hf]
    rfl

/-- C31: for every code-word `cc`, whatever `cce` computes for it, and every
table size `N ≥ 2`, `cci(cc) < N`; the table of `createCCTable` has `N` entries,
`storeCC` and `removeCC` keep that number, and on every table of `N` entries
the entry `table[cci(cc)]` that `findCC`, `storeCC` and `removeCC` access
exists, so `findCC` always returns the result of its search in that bucket. -/
theorem cci_in_table (cce : Nat → Nat) (N cc : Nat) (hN : 2 ≤ N) :
    cci cce N cc < N ∧ (createCCTable N).length = N ∧
    (∀ table : List CCNode, table.length = N →
      ∃ root, table[cci cce N cc]? = some root ∧
        findCC cce N table cc = some (findCCNode cc root)) ∧
    (∀ (alloc : Bool) (table table' : List CCNode) (ccui : List Nat),
      storeCC cce N alloc table ccui = some table' → table'.length = table.length) ∧
    (∀ (table table' : List CCNode) (a : Nat),
      removeCC cce N table a = some table' → table'.length = table.length) := by
  have hlt : cci cce N cc < N := by
    have := cci_le_one cce N cc
    omega
  refine ⟨hlt, createCCTable_length N, ?_, fun alloc table table' ccui h =>
    storeCC_length cce N alloc table table' ccui h, fun table table' a h =>
    removeCC_length cce N table table' a h⟩
  intro table hlen
  have hi : cci cce N cc < table.length := by omega
  refine ⟨table[cci cce N cc], List.getElem?_eq_getElem hi, ?_⟩
  unfold findCC
  rw [List.getElem?_eq_getElem hi]

theorem cci_in_table_witness :
    (cci cceSpec 676 4294967295 < 676 ∧ cci cceSpec 676 (codeWord 68 69) < 676 ∧
      cci cceSpec 676 0 < 676) ∧
    (cci cceSpec 676 4294967295 < 676 ∧ (createCCTable 676).length = 676 ∧
    (∀ table : List CCNode, table.length = 676 →
      ∃ root, table[cci cceSpec 676 4294967295]? = some root ∧
        findCC cceSpec 676 table 4294967295 = some (findCCNode 4294967295 root)) ∧
    (∀ (alloc : Bool) (table table' : List CCNode) (ccui : List Nat),
      storeCC cceSpec 676 alloc table ccui = some table' → table'.length = table.length) ∧
    (∀ (table table' : List CCNode) (a : Nat),
      removeCC cceSpec 676 table a = some table' → table'.length = table.length)) :=
  ⟨by decide, cci_in_table cceSpec 676 4294967295 (by decide)⟩

end Ipdb
